import Mathlib

/-!
Verification of the chunked B-tree partial map core
(`chunkedBTree.ts`, `sequencedState.ts`, `pendingState.ts` and the
`SharedPartialMap` controller).

Keys are JavaScript strings compared with `<` (lexicographic); we embed
them as Lean `String` with its linear order.  Blob handles are embedded
as natural numbers allocated by a counter; the blob store is an
association list from handles to persisted nodes.  All asynchronous
code is embedded as fuel-indexed functions returning `Option`
(`none` = suspension on a missing blob or exhausted fuel).
-/

namespace PartialMap

abbrev K := String
abbrev Handle := Nat

/-- Persisted node blob: leaf `{keys, values}` or interior `{keys, children}`. -/
inductive PNode (V : Type) where
  | pleaf (keys : List K) (vals : List V)
  | pnode (keys : List K) (children : List Handle)
  deriving DecidableEq

/-- The blob store: association list from handle to persisted node. -/
abbrev Store (V : Type) := List (Handle × PNode V)

def Store.find {V : Type} : Store V → Handle → Option (PNode V)
  | [], _ => none
  | (h, pn) :: rest, x => if h = x then some pn else Store.find rest x

/-- An in-memory B-tree node: `LeafyBTreeNode`, `BTreeNode`, or a
`LazyBTreeNode` whose cache (`this.node`) is either unset or holds a
resolved node. -/
inductive Node (V : Type) where
  | leaf (keys : List K) (vals : List V)
  | node (keys : List K) (children : List (Node V))
  | lazy (h : Handle)
  | lazyCached (h : Handle) (n : Node V)

mutual
/-- `workingSetSize`: total key count resident in memory. -/
def wssN {V : Type} : Node V → Nat
  | .leaf ks _ => ks.length
  | .node _ cs => wssL cs
  | .lazy _ => 0
  | .lazyCached _ n => wssN n

def wssL {V : Type} : List (Node V) → Nat
  | [] => 0
  | c :: ct => wssN c + wssL ct
end

mutual
/-- `evict`: post-order traversal that discards caches of lazy nodes while
the `remaining` budget is positive.  Returns the new node, the new value of
`evicted.remaining`, and the call's return value (un-evictable entries below). -/
def evictN {V : Type} : Node V → Int → Node V × Int × Nat
  | .leaf ks vs, r => (.leaf ks vs, r, ks.length)
  | .node ks cs, r =>
      let (cs', r', u) := evictL cs r
      (.node ks cs', r', u)
  | .lazy h, r => (.lazy h, r, 0)
  | .lazyCached h n, r =>
      let (n', r1, u) := evictN n r
      let r2 := r1 - (u : Int)
      if r2 > 0 then (.lazy h, r2, 0) else (.lazyCached h n', r2, 0)

def evictL {V : Type} : List (Node V) → Int → List (Node V) × Int × Nat
  | [], r => ([], r, 0)
  | c :: ct, r =>
      let (c', r', u) := evictN c r
      if r' ≤ 0 then (c' :: ct, r', u)
      else
        let (ct', r'', u') := evictL ct r'
        (c' :: ct', r'', u + u')
end

mutual
/-- All keys stored in materialized leaves (the tree's in-memory contents). -/
def contentKeys {V : Type} : Node V → List K
  | .leaf ks _ => ks
  | .node _ cs => contentKeysL cs
  | .lazy _ => []
  | .lazyCached _ n => contentKeys n

def contentKeysL {V : Type} : List (Node V) → List K
  | [] => []
  | c :: ct => contentKeys c ++ contentKeysL ct
end

mutual
/-- `true` iff the node tree contains no lazy (handle-backed) wrapper. -/
def noLazyB {V : Type} : Node V → Bool
  | .leaf _ _ => true
  | .node _ cs => noLazyL cs
  | .lazy _ => false
  | .lazyCached _ _ => false

def noLazyL {V : Type} : List (Node V) → Bool
  | [] => true
  | c :: ct => noLazyB c && noLazyL ct
end

/-- `LazyBTreeNode.load`'s construction of an in-memory node from a resolved
blob: a leaf blob becomes a `LeafyBTreeNode`, an interior blob becomes a
`BTreeNode` whose children are fresh (uncached) lazy wrappers. -/
def buildNode {V : Type} : PNode V → Node V
  | .pleaf ks vs => .leaf ks vs
  | .pnode ks hs => .node ks (hs.map .lazy)

/-- Result of the leaf scan in `LeafyBTreeNode.set`: either the key was
already present and only its value is replaced (source returns immediately,
keys unchanged), or the pair is spliced in at the first index whose key
exceeds it. -/
inductive InsRes (V : Type) where
  | replaced (keys : List K) (vals : List V)
  | inserted (keys : List K) (vals : List V)

def leafIns {V : Type} : List K → List V → K → V → InsRes V
  | [], _, k, v => .inserted [k] [v]
  | k0 :: kt, v0 :: vt, k, v =>
      if k = k0 then .replaced (k0 :: kt) (v :: vt)
      else if k < k0 then .inserted (k :: k0 :: kt) (v :: v0 :: vt)
      else
        match leafIns kt vt k v with
        | .replaced ks' vs' => .replaced (k0 :: ks') (v0 :: vs')
        | .inserted ks' vs' => .inserted (k0 :: ks') (v0 :: vs')
  | k0 :: kt, [], k, v => .inserted (k0 :: kt ++ [k]) [v]

/-- Result of `IBTreeNode.set`: a replacement node or a `[left, separator,
right]` split triple. -/
inductive SetRes (V : Type) where
  | one (n : Node V)
  | split (a : Node V) (sep : K) (b : Node V)

/-- The leaf split of `LeafyBTreeNode.set`: when the spliced key list reaches
`order` entries, the left node keeps the first `ceil(n/2)` pairs, the right
node the remaining `floor(n/2)`, and the separator is the right node's first
key. -/
def leafFinish {V : Type} (order : Nat) (ks : List K) (vs : List V) : SetRes V :=
  if order ≤ ks.length then
    let c := (ks.length + 1) / 2
    match ks.drop c, vs.drop c with
    | k2 :: kt2, v2 :: vt2 =>
        .split (.leaf (ks.take c) (vs.take c)) k2 (.leaf (k2 :: kt2) (v2 :: vt2))
    | _, _ => .one (.leaf ks vs)
  else .one (.leaf ks vs)

/-- The interior split of `BTreeNode.set`: when the key list (after splicing
in the separator returned by a split child) reaches `order` entries, the left
node keeps the first `floor(n/2)` keys and first `ceil(m/2)` children, the
promoted separator is the next key, and the right node takes the rest. -/
def interiorFinish {V : Type} (order : Nat) (ks : List K) (cs : List (Node V)) : SetRes V :=
  if order ≤ ks.length then
    match ks.drop (ks.length / 2) with
    | sk :: krest =>
        let m := cs.length
        .split (.node (ks.take (ks.length / 2)) (cs.take ((m + 1) / 2))) sk
          (.node krest (cs.drop ((m + 1) / 2)))
    | [] => .one (.node ks cs)
  else .one (.node ks cs)

mutual
/-- `IBTreeNode.set` with explicit fuel, blob store, and the shared
`deletedHandles` accumulator.  A lazy wrapper pushes its handle and delegates
to its resolved node; `none` models exhausted fuel or a failed resolve.
(Fuel decreases on every recursive call so the definitions stay structurally
recursive and kernel-computable; any sufficiently large fuel is adequate.) -/
def setN {V : Type} (order : Nat) :
    Nat → Store V → Node V → K → V → List Handle →
    Option (SetRes V × List Handle)
  | 0, _, _, _, _, _ => none
  | fuel + 1, store, n, k, v, dh =>
      match n with
      | .leaf ks vs =>
          match leafIns ks vs k v with
          | .replaced ks' vs' => some (.one (.leaf ks' vs'), dh)
          | .inserted ks' vs' => some (leafFinish order ks' vs', dh)
      | .node ks cs =>
          match setAux order fuel store ks cs k v dh with
          | some (ks', cs', dh') => some (interiorFinish order ks' cs', dh')
          | none => none
      | .lazy h =>
          match Store.find store h with
          | some pn => setN order fuel store (buildNode pn) k v (dh ++ [h])
          | none => none
      | .lazyCached h m => setN order fuel store m k v (dh ++ [h])

/-- The descent loop of `BTreeNode.set` over the parallel key/child lists:
descend into the first child whose upper separator exceeds the key (or the
last child), splicing a split child's parts and separator in place. -/
def setAux {V : Type} (order : Nat) :
    Nat → Store V → List K → List (Node V) → K → V → List Handle →
    Option (List K × List (Node V) × List Handle)
  | 0, _, _, _, _, _, _ => none
  | fuel + 1, store, [], c :: rest, k, v, dh =>
      match setN order fuel store c k v dh with
      | some (.one c', dh') => some ([], c' :: rest, dh')
      | some (.split a sk b, dh') => some ([sk], a :: b :: rest, dh')
      | none => none
  | fuel + 1, store, k0 :: kt, c :: ct, k, v, dh =>
      if k < k0 then
        match setN order fuel store c k v dh with
        | some (.one c', dh') => some (k0 :: kt, c' :: ct, dh')
        | some (.split a sk b, dh') => some (sk :: k0 :: kt, a :: b :: ct, dh')
        | none => none
      else
        match setAux order fuel store kt ct k v dh with
        | some (ks', cs', dh') => some (k0 :: ks', c :: cs', dh')
        | none => none
  | _ + 1, _, _, [], _, _, _ => none
end

/-- The leaf scan of `LeafyBTreeNode.delete`: `some` with the spliced-out
lists when the key is found, `none` when absent (source returns `this`). -/
def leafDel {V : Type} : List K → List V → K → Option (List K × List V)
  | k0 :: kt, v0 :: vt, k =>
      if k0 = k then some (kt, vt)
      else
        match leafDel kt vt k with
        | some (ks', vs') => some (k0 :: ks', v0 :: vs')
        | none => none
  | _, _, _ => none

mutual
/-- `IBTreeNode.delete` with fuel and store; a lazy wrapper pushes its handle
to `deletedHandles` before resolving, exactly as `LazyBTreeNode.delete`. -/
def delN {V : Type} :
    Nat → Store V → Node V → K → List Handle → Option (Node V × List Handle)
  | 0, _, _, _, _ => none
  | _ + 1, _, .leaf ks vs, k, dh =>
      match leafDel ks vs k with
      | some (ks', vs') => some (.leaf ks' vs', dh)
      | none => some (.leaf ks vs, dh)
  | fuel + 1, store, .node ks cs, k, dh =>
      match delAux fuel store ks cs k dh with
      | some (cs', dh') => some (.node ks cs', dh')
      | none => none
  | fuel + 1, store, .lazy h, k, dh =>
      match Store.find store h with
      | some pn => delN fuel store (buildNode pn) k (dh ++ [h])
      | none => none
  | fuel + 1, store, .lazyCached h m, k, dh => delN fuel store m k (dh ++ [h])

/-- The descent loop of `BTreeNode.delete`: replace the chosen child by its
recursive delete, keeping keys and other children. -/
def delAux {V : Type} :
    Nat → Store V → List K → List (Node V) → K → List Handle →
    Option (List (Node V) × List Handle)
  | 0, _, _, _, _, _ => none
  | fuel + 1, store, [], c :: rest, k, dh =>
      match delN fuel store c k dh with
      | some (c', dh') => some (c' :: rest, dh')
      | none => none
  | fuel + 1, store, k0 :: kt, c :: ct, k, dh =>
      if k < k0 then
        match delN fuel store c k dh with
        | some (c', dh') => some (c' :: ct, dh')
        | none => none
      else
        match delAux fuel store kt ct k dh with
        | some (cs', dh') => some (c :: cs', dh')
        | none => none
  | _ + 1, _, _, [], _, _ => none
end

/-- The linear scan of `LeafyBTreeNode.get`. -/
def leafGet {V : Type} : List K → List V → K → Option V
  | k0 :: kt, v0 :: vt, k => if k0 = k then some v0 else leafGet kt vt k
  | _, _, _ => none

mutual
/-- `IBTreeNode.get` with fuel and store (read-only; cache filling is not
modelled since no claim depends on it). -/
def getN {V : Type} : Nat → Store V → Node V → K → Option (Option V)
  | 0, _, _, _ => none
  | _ + 1, _, .leaf ks vs, k => some (leafGet ks vs k)
  | fuel + 1, store, .node ks cs, k => getAux fuel store ks cs k
  | fuel + 1, store, .lazy h, k =>
      match Store.find store h with
      | some pn => getN fuel store (buildNode pn) k
      | none => none
  | fuel + 1, store, .lazyCached _ m, k => getN fuel store m k

def getAux {V : Type} : Nat → Store V → List K → List (Node V) → K → Option (Option V)
  | 0, _, _, _, _ => none
  | fuel + 1, store, [], c :: _, k => getN fuel store c k
  | fuel + 1, store, k0 :: kt, c :: ct, k =>
      if k < k0 then getN fuel store c k else getAux fuel store kt ct k
  | _ + 1, _, _, [], _ => none
end

mutual
/-- `IBTreeNode.upload`: serialize the subtree bottom-up.  Fresh nodes
allocate a handle from the counter, append the blob to the store and push the
handle onto `newHandles`; lazy wrappers re-emit their existing handle. -/
def uploadN {V : Type} :
    Nat → Node V → Nat → Store V → List Handle →
    Option (Handle × Nat × Store V × List Handle)
  | 0, _, _, _, _ => none
  | _ + 1, .leaf ks vs, ctr, store, nh =>
      some (ctr, ctr + 1, store ++ [(ctr, .pleaf ks vs)], nh ++ [ctr])
  | fuel + 1, .node ks cs, ctr, store, nh =>
      match uploadL fuel cs ctr store nh with
      | some (hs, ctr', store', nh') =>
          some (ctr', ctr' + 1, store' ++ [(ctr', .pnode ks hs)], nh' ++ [ctr'])
      | none => none
  | _ + 1, .lazy h, ctr, store, nh => some (h, ctr, store, nh)
  | _ + 1, .lazyCached h _, ctr, store, nh => some (h, ctr, store, nh)

def uploadL {V : Type} :
    Nat → List (Node V) → Nat → Store V → List Handle →
    Option (List Handle × Nat × Store V × List Handle)
  | 0, _, _, _, _ => none
  | _ + 1, [], ctr, store, nh => some ([], ctr, store, nh)
  | fuel + 1, c :: ct, ctr, store, nh =>
      match uploadN fuel c ctr store nh with
      | some (h, ctr', store', nh') =>
          match uploadL fuel ct ctr' store' nh' with
          | some (hs, ctr'', store'', nh'') => some (h :: hs, ctr'', store'', nh'')
          | none => none
      | none => none
end

/-- Sorted-set insertion used for the tree's handle `BTree` (`handles.set(h, h)`):
keyed insertion that replaces an equal key and otherwise keeps order. -/
def insertH : List Handle → Handle → List Handle
  | [], x => [x]
  | h0 :: t, x =>
      if x < h0 then x :: h0 :: t
      else if x = h0 then h0 :: t
      else h0 :: insertH t x

/-- `handles.deleteKeys(keys)`: each listed key is removed from the keyed
collection. -/
def deleteKeysH (l : List Handle) (dels : List Handle) : List Handle :=
  l.filter (fun h => decide (h ∉ dels))

/-- The `IBtreeUpdate` / `FlushOutput` record `{newRoot, newHandles,
deletedHandles}`. -/
structure FlushOutput where
  newRoot : Handle
  newHandles : List Handle
  deletedHandles : List Handle

/-- `ChunkedBtree`: order, root node and the handle bookkeeping `BTree`. -/
structure Tree (V : Type) where
  order : Nat
  root : Node V
  handles : List Handle

/-- `ChunkedBtree.create` / the private constructor with no root: an empty
leaf root and an empty handle set. -/
def createT (V : Type) (order : Nat) : Tree V :=
  { order := order, root := .leaf [] [], handles := [] }

/-- `ChunkedBtree.set`: root-level set; a root split grows a new interior
root with the single returned separator.  Mirrors `cloneWithNewRoot`, which
passes no handle set to the new tree. -/
def setT {V : Type} (fuel : Nat) (store : Store V) (t : Tree V) (k : K) (v : V)
    (dh : List Handle) : Option (Tree V × List Handle) :=
  match setN t.order fuel store t.root k v dh with
  | some (.one n, dh') => some ({ order := t.order, root := n, handles := [] }, dh')
  | some (.split a sk b, dh') =>
      some ({ order := t.order, root := .node [sk] [a, b], handles := [] }, dh')
  | none => none

/-- `ChunkedBtree.delete`: root-level delete through `cloneWithNewRoot`. -/
def delT {V : Type} (fuel : Nat) (store : Store V) (t : Tree V) (k : K)
    (dh : List Handle) : Option (Tree V × List Handle) :=
  match delN fuel store t.root k dh with
  | some (n, dh') => some ({ order := t.order, root := n, handles := [] }, dh')
  | none => none

/-- `ChunkedBtree.get`. -/
def getT {V : Type} (fuel : Nat) (store : Store V) (t : Tree V) (k : K) :
    Option (Option V) :=
  getN fuel store t.root k

/-- `ChunkedBtree.flush` exactly as written in the source: the accumulating
`btree` variable is reassigned from `this.set`/`this.delete` (not from
`btree.set`/`btree.delete`), so every iteration starts again from the
receiver; afterwards the accumulated tree's root is uploaded. -/
def flushT {V : Type} (fuel : Nat) (t : Tree V) (updates : List (K × V))
    (deletes : List K) (ctr : Nat) (store : Store V) :
    Option (FlushOutput × Nat × Store V) :=
  let step1 : Option (Tree V × List Handle) :=
    updates.foldlM (fun (acc : Tree V × List Handle) kv =>
      setT fuel store t kv.1 kv.2 acc.2) (t, [])
  match step1 with
  | none => none
  | some (b1, dh1) =>
      let step2 : Option (Tree V × List Handle) :=
        deletes.foldlM (fun (acc : Tree V × List Handle) k =>
          delT fuel store t k acc.2) (b1, dh1)
      match step2 with
      | none => none
      | some (b2, dh2) =>
          match uploadN fuel b2.root ctr store [] with
          | some (newRoot, ctr', store', nh) =>
              some ({ newRoot := newRoot, newHandles := nh, deletedHandles := dh2 },
                ctr', store')
          | none => none

/-- `ChunkedBtree.update`: swap the root for an uncached lazy wrapper over
the new root handle; add `newHandles` to and remove `deletedHandles` from the
handle set. -/
def updateT {V : Type} (t : Tree V) (u : FlushOutput) : Tree V :=
  { order := t.order,
    root := .lazy u.newRoot,
    handles := deleteKeysH (u.newHandles.foldl insertH t.handles) u.deletedHandles }

/-- `ChunkedBtree.getAllHandles` (`keysArray` of the handle `BTree`). -/
def getAllHandles {V : Type} (t : Tree V) : List Handle := t.handles

/-- `ChunkedBtree.clear`: a fresh empty tree of the same order. -/
def clearT {V : Type} (t : Tree V) : Tree V := createT V t.order

/-- `ChunkedBtree.evict`. -/
def evictT {V : Type} (t : Tree V) (hint : Int) : Tree V :=
  { t with root := (evictN t.root hint).1 }

/-- `ChunkedBtree.workingSetSize`. -/
def wssT {V : Type} (t : Tree V) : Nat := wssN t.root

/-- `ChunkedBtree.load` for a serialized tree whose root is a handle: a lazy
root plus the summarized handle list. -/
def loadHandleT (V : Type) (order : Nat) (rootHandle : Handle)
    (handles : List Handle) : Tree V :=
  { order := order,
    root := .lazy rootHandle,
    handles := handles.foldl insertH [] }

/-- `ChunkedBtree.load` for an inline leaf root: the source builds an empty
tree and calls `btree.set(key, values[i], [])` for each pair but discards
every returned tree (`btree` is `const` and `set` is immutable), so the
loaded tree is the empty tree once every awaited `set` succeeds. -/
def loadLeafT {V : Type} (fuel : Nat) (store : Store V) (order : Nat)
    (ks : List K) (vs : List V) : Option (Tree V) :=
  if ks.length = vs.length then
    let t0 := createT V order
    if (ks.zip vs).all (fun kv => (setT fuel store t0 kv.1 kv.2 []).isSome) then
      some t0
    else none
  else none

/-! ## Handle-set bookkeeping lemmas (claim C5) -/

theorem mem_insertH (l : List Handle) (x a : Handle) :
    a ∈ insertH l x ↔ a = x ∨ a ∈ l := by
  induction l with
  | nil => simp [insertH]
  | cons h0 t ih =>
      simp only [insertH]
      split
      · simp only [List.mem_cons]
      · split
        · next he =>
            subst he
            simp only [List.mem_cons]
            tauto
        · simp only [List.mem_cons, ih]
          tauto

theorem mem_foldl_insertH (l2 l : List Handle) (a : Handle) :
    a ∈ l2.foldl insertH l ↔ a ∈ l ∨ a ∈ l2 := by
  induction l2 generalizing l with
  | nil => simp
  | cons x t ih =>
      simp only [List.foldl_cons, ih, mem_insertH, List.mem_cons]
      try tauto

theorem mem_deleteKeysH (l dels : List Handle) (a : Handle) :
    a ∈ deleteKeysH l dels ↔ a ∈ l ∧ a ∉ dels := by
  simp [deleteKeysH, List.mem_filter]

/-- C5: for every chunked B-tree and every `FlushOutput` `U`, the handle set
of `tree.update(U)` is, as a set, `(old handle set ∪ U.newHandles) \\
U.deletedHandles`, and `getAllHandles` of the updated tree enumerates exactly
that set. -/
theorem update_handles_eq_union_diff {V : Type} (t : Tree V) (u : FlushOutput)
    (a : Handle) :
    a ∈ getAllHandles (updateT t u) ↔
      (a ∈ getAllHandles t ∨ a ∈ u.newHandles) ∧ a ∉ u.deletedHandles := by
  simp only [getAllHandles, updateT, mem_deleteKeysH, mem_foldl_insertH]
  try tauto

/-! ## The flush bug (claim C1) -/

/-- C1 (code evaluated at the failing input): `flush` reassigns its
accumulator from `this.set`/`this.delete` instead of `btree.set`/
`btree.delete`, so flushing the two updates `a ↦ 1, b ↦ 2` on an empty tree
produces a tree that, after `update`, resolves `a` to nothing while `b`
is present — the first update was dropped. -/
theorem flush_drops_all_but_last_update :
    (flushT 10 (createT Nat 32) [("a", 1), ("b", 2)] [] 0 []).map
        (fun r => (getT 10 r.2.2 (updateT (createT Nat 32) r.1) "a",
                   getT 10 r.2.2 (updateT (createT Nat 32) r.1) "b")) =
      some (some none, some (some 2)) := by
  decide

/-! ## Delete of an absent key (claim C4) -/

/-- C4 counterexample: on a tree whose root is an unresolved lazy node over a
single-entry leaf blob, deleting the absent key `"b"` pushes the lazy node's
handle `0` into `deleted_handles_out` and changes the working-set size from
`0` to `1` — the claim's "nothing spurious is recorded" and "does not change
working_set_size" both fail. -/
theorem delete_absent_lazy_not_noop :
    getT 10 [(0, PNode.pleaf ["a"] [7])] ⟨32, .lazy 0, [0]⟩ "b" = some none ∧
    (delT 10 [(0, PNode.pleaf ["a"] [7])] (⟨32, .lazy 0, [0]⟩ : Tree Nat) "b" []).map
        (fun r => (r.2, wssT r.1)) = some ([0], 1) ∧
    wssT (⟨32, .lazy 0, [0]⟩ : Tree Nat) = 0 := by
  refine ⟨by decide, ?_, rfl⟩
  rfl

theorem leafDel_eq_none {V : Type} :
    ∀ (ks : List K) (vs : List V) (k : K), k ∉ ks → leafDel ks vs k = none := by
  intro ks
  induction ks with
  | nil => intro vs k _; cases vs <;> rfl
  | cons k0 kt ih =>
      intro vs k hk
      cases vs with
      | nil => rfl
      | cons v0 vt =>
          have h1 : k0 ≠ k := fun h => hk (h ▸ List.mem_cons_self k0 kt)
          have h2 : k ∉ kt := fun h => hk (List.mem_cons_of_mem _ h)
          simp [leafDel, h1, ih vt k h2]

/-- Joint fuel induction: on a lazy-free node, deleting an absent key
returns the very same node and leaves `deletedHandles` untouched. -/
theorem delN_absent_frame {V : Type} :
    ∀ (fuel : Nat),
      (∀ (store : Store V) (n : Node V) (k : K) (dh : List Handle) res,
        noLazyB n = true → k ∉ contentKeys n →
        delN fuel store n k dh = some res → res = (n, dh)) ∧
      (∀ (store : Store V) (ks : List K) (cs : List (Node V)) (k : K)
          (dh : List Handle) res,
        noLazyL cs = true → k ∉ contentKeysL cs →
        delAux fuel store ks cs k dh = some res → res = (cs, dh)) := by
  intro fuel
  induction fuel with
  | zero =>
      constructor
      · intro store n k dh res _ _ h; simp [delN] at h
      · intro store ks cs k dh res _ _ h; simp [delAux] at h
  | succ f ih =>
      obtain ⟨ihN, ihA⟩ := ih
      constructor
      · intro store n k dh res hnl habs h
        match n with
        | .leaf ks vs =>
            rw [show contentKeys (Node.leaf ks vs : Node V) = ks from rfl] at habs
            rw [show delN (f + 1) store (Node.leaf ks vs) k dh
                  = some (.leaf ks vs, dh) by
                simp [delN, leafDel_eq_none ks vs k habs]] at h
            exact (Option.some_inj.mp h).symm
        | .node ks cs =>
            have hnl' : noLazyL cs = true := hnl
            have habs' : k ∉ contentKeysL cs := habs
            cases hda : delAux f store ks cs k dh with
            | none => simp [delN, hda] at h
            | some res' =>
                obtain ⟨cs', dh'⟩ := res'
                have := ihA store ks cs k dh (cs', dh') hnl' habs' hda
                simp only [delN, hda] at h
                cases this
                exact (Option.some_inj.mp h).symm
        | .lazy h0 => simp [noLazyB] at hnl
        | .lazyCached h0 m => simp [noLazyB] at hnl
      · intro store ks cs k dh res hnl habs h
        match ks, cs with
        | _, [] => simp [delAux] at h
        | [], c :: rest =>
            have hc : noLazyB c = true := by
              simp [noLazyL, Bool.and_eq_true] at hnl; exact hnl.1
            have hk : k ∉ contentKeys c := fun hm =>
              habs (by simp [contentKeysL]; exact Or.inl hm)
            cases hdn : delN f store c k dh with
            | none => simp [delAux, hdn] at h
            | some res' =>
                have := ihN store c k dh res' hc hk hdn
                subst this
                simp only [delAux, hdn] at h
                exact (Option.some_inj.mp h).symm
        | k0 :: kt, c :: ct =>
            have hc : noLazyB c = true := by
              simp [noLazyL, Bool.and_eq_true] at hnl; exact hnl.1
            have hct : noLazyL ct = true := by
              simp [noLazyL, Bool.and_eq_true] at hnl; exact hnl.2
            have hk : k ∉ contentKeys c := fun hm =>
              habs (by simp [contentKeysL]; exact Or.inl hm)
            have hkt : k ∉ contentKeysL ct := fun hm =>
              habs (by simp [contentKeysL]; exact Or.inr hm)
            by_cases hlt : k < k0
            · cases hdn : delN f store c k dh with
              | none => simp [delAux, hlt, hdn] at h
              | some res' =>
                  have := ihN store c k dh res' hc hk hdn
                  subst this
                  simp only [delAux, if_pos hlt, hdn] at h
                  exact (Option.some_inj.mp h).symm
            · cases hda : delAux f store kt ct k dh with
              | none => simp [delAux, hlt, hda] at h
              | some res' =>
                  obtain ⟨cs', dh'⟩ := res'
                  have := ihA store kt ct k dh (cs', dh') hct hkt hda
                  cases this
                  simp only [delAux, if_neg hlt, hda] at h
                  exact (Option.some_inj.mp h).symm

/-- C4 (amended): for a chunked B-tree with no lazily-loaded nodes, deleting
an absent key returns a tree with the identical root (hence identical
contents and unchanged `workingSetSize`) and records nothing in
`deleted_handles_out`.  (With lazy nodes on the path, the source pushes each
traversed lazy handle and resolving can grow the working set — see the
counterexample.) -/
theorem delete_absent_inmem_noop {V : Type} (fuel : Nat) (store : Store V)
    (t : Tree V) (k : K) (dh : List Handle) (t' : Tree V) (dh' : List Handle)
    (hnl : noLazyB t.root = true) (habs : k ∉ contentKeys t.root)
    (h : delT fuel store t k dh = some (t', dh')) :
    t'.root = t.root ∧ t'.order = t.order ∧ dh' = dh ∧ wssT t' = wssT t := by
  cases hdn : delN fuel store t.root k dh with
  | none => simp [delT, hdn] at h
  | some res =>
      have := (delN_absent_frame fuel).1 store t.root k dh res hnl habs hdn
      subst this
      simp only [delT, hdn] at h
      cases h
      exact ⟨rfl, rfl, rfl, rfl⟩

theorem delete_absent_inmem_noop_witness :
    noLazyB ((⟨3, .leaf ["a"] [1], []⟩ : Tree Nat)).root = true ∧
    "b" ∉ contentKeys ((⟨3, .leaf ["a"] [1], []⟩ : Tree Nat)).root ∧
    ((⟨3, .leaf ["a"] [1], []⟩ : Tree Nat)).root = (⟨3, .leaf ["a"] [1], []⟩ : Tree Nat).root := by
  refine ⟨by decide, by decide, ?_⟩
  exact (delete_absent_inmem_noop 2 [] ⟨3, .leaf ["a"] [1], []⟩ "b" []
    ⟨3, .leaf ["a"] [1], []⟩ [] (by decide) (by decide) rfl).1

/-! ## Eviction on purely in-memory trees (claim C10) -/

mutual
theorem evictN_noLazy {V : Type} (n : Node V) (r : Int) (h : noLazyB n = true) :
    ∃ u, evictN n r = (n, r, u) := by
  match n with
  | .leaf ks vs => exact ⟨ks.length, rfl⟩
  | .node ks cs =>
      have h' : noLazyL cs = true := h
      obtain ⟨u, hu⟩ := evictL_noLazy cs r h'
      exact ⟨u, by simp [evictN, hu]⟩
  | .lazy h0 => simp [noLazyB] at h
  | .lazyCached h0 m => simp [noLazyB] at h

theorem evictL_noLazy {V : Type} (cs : List (Node V)) (r : Int) (h : noLazyL cs = true) :
    ∃ u, evictL cs r = (cs, r, u) := by
  match cs with
  | [] => exact ⟨0, rfl⟩
  | c :: ct =>
      have h1 : noLazyB c = true := by
        simp only [noLazyL, Bool.and_eq_true] at h; exact h.1
      have h2 : noLazyL ct = true := by
        simp only [noLazyL, Bool.and_eq_true] at h; exact h.2
      obtain ⟨u, hu⟩ := evictN_noLazy c r h1
      by_cases hr : r ≤ 0
      · exact ⟨u, by simp [evictL, hu, hr]⟩
      · obtain ⟨u', hu'⟩ := evictL_noLazy ct r h2
        exact ⟨u + u', by simp [evictL, hu, hr, hu']⟩
end

theorem noLazyL_take {V : Type} :
    ∀ (cs : List (Node V)) (i : Nat), noLazyL cs = true → noLazyL (cs.take i) = true := by
  intro cs
  induction cs with
  | nil => intro i _; simp [List.take_nil]; rfl
  | cons c ct ih =>
      intro i h
      simp only [noLazyL, Bool.and_eq_true] at h
      cases i with
      | zero => rfl
      | succ j => simpa [List.take, noLazyL, Bool.and_eq_true] using ⟨h.1, ih j h.2⟩

theorem noLazyL_drop {V : Type} :
    ∀ (cs : List (Node V)) (i : Nat), noLazyL cs = true → noLazyL (cs.drop i) = true := by
  intro cs
  induction cs with
  | nil => intro i _; simp [List.drop_nil]; rfl
  | cons c ct ih =>
      intro i h
      simp only [noLazyL, Bool.and_eq_true] at h
      cases i with
      | zero => simpa [noLazyL, Bool.and_eq_true] using h
      | succ j => simpa [List.drop] using ih j h.2

/-- Whether a `set` result consists of lazy-free nodes. -/
def noLazyRes {V : Type} : SetRes V → Bool
  | .one n => noLazyB n
  | .split a _ b => noLazyB a && noLazyB b

theorem noLazyRes_leafFinish {V : Type} (order : Nat) (ks : List K) (vs : List V) :
    noLazyRes (leafFinish (V := V) order ks vs) = true := by
  unfold leafFinish
  split
  · dsimp only
    split <;> rfl
  · rfl

theorem noLazyRes_interiorFinish {V : Type} (order : Nat) (ks : List K)
    (cs : List (Node V)) (h : noLazyL cs = true) :
    noLazyRes (interiorFinish order ks cs) = true := by
  unfold interiorFinish
  split
  · split
    · simp only [noLazyRes, noLazyB, Bool.and_eq_true]
      exact ⟨noLazyL_take cs _ h, noLazyL_drop cs _ h⟩
    · simpa [noLazyRes, noLazyB] using h
  · simpa [noLazyRes, noLazyB] using h

theorem setN_noLazy {V : Type} (order : Nat) :
    ∀ (fuel : Nat),
      (∀ (store : Store V) (n : Node V) (k : K) (v : V) (dh : List Handle) res dh',
        noLazyB n = true → setN order fuel store n k v dh = some (res, dh') →
        noLazyRes res = true) ∧
      (∀ (store : Store V) (ks : List K) (cs : List (Node V)) (k : K) (v : V)
          (dh : List Handle) ks' cs' dh',
        noLazyL cs = true → setAux order fuel store ks cs k v dh = some (ks', cs', dh') →
        noLazyL cs' = true) := by
  intro fuel
  induction fuel with
  | zero =>
      constructor
      · intro store n k v dh res dh' _ h; simp [setN] at h
      · intro store ks cs k v dh ks' cs' dh' _ h; simp [setAux] at h
  | succ f ih =>
      obtain ⟨ihN, ihA⟩ := ih
      constructor
      · intro store n k v dh res dh' hnl h
        match n with
        | .leaf ks vs =>
            simp only [setN] at h
            cases hli : leafIns ks vs k v with
            | replaced ks2 vs2 =>
                rw [hli] at h
                cases h; rfl
            | inserted ks2 vs2 =>
                rw [hli] at h
                cases h
                exact noLazyRes_leafFinish order ks2 vs2
        | .node ks cs =>
            have hnl' : noLazyL cs = true := hnl
            simp only [setN] at h
            cases hsa : setAux order f store ks cs k v dh with
            | none => rw [hsa] at h; cases h
            | some r =>
                obtain ⟨ks2, cs2, dh2⟩ := r
                rw [hsa] at h
                cases h
                exact noLazyRes_interiorFinish order ks2 cs2
                  (ihA store ks cs k v dh ks2 cs2 _ hnl' hsa)
        | .lazy h0 => simp [noLazyB] at hnl
        | .lazyCached h0 m => simp [noLazyB] at hnl
      · intro store ks cs k v dh ks' cs' dh' hnl h
        match ks, cs with
        | _, [] => simp [setAux] at h
        | [], c :: rest =>
            have hc : noLazyB c = true := by
              simp only [noLazyL, Bool.and_eq_true] at hnl; exact hnl.1
            have hrest : noLazyL rest = true := by
              simp only [noLazyL, Bool.and_eq_true] at hnl; exact hnl.2
            simp only [setAux] at h
            cases hsn : setN order f store c k v dh with
            | none => rw [hsn] at h; cases h
            | some r =>
                obtain ⟨res, dh2⟩ := r
                have hres := ihN store c k v dh res _ hc hsn
                rw [hsn] at h
                cases res with
                | one c2 =>
                    cases h
                    simpa [noLazyL, Bool.and_eq_true] using
                      ⟨by simpa [noLazyRes] using hres, hrest⟩
                | split a sk b =>
                    cases h
                    simp only [noLazyRes, Bool.and_eq_true] at hres
                    simpa [noLazyL, Bool.and_eq_true] using ⟨hres.1, hres.2, hrest⟩
        | k0 :: kt, c :: ct =>
            have hc : noLazyB c = true := by
              simp only [noLazyL, Bool.and_eq_true] at hnl; exact hnl.1
            have hct : noLazyL ct = true := by
              simp only [noLazyL, Bool.and_eq_true] at hnl; exact hnl.2
            simp only [setAux] at h
            by_cases hlt : k < k0
            · rw [if_pos hlt] at h
              cases hsn : setN order f store c k v dh with
              | none => rw [hsn] at h; cases h
              | some r =>
                  obtain ⟨res, dh2⟩ := r
                  have hres := ihN store c k v dh res _ hc hsn
                  rw [hsn] at h
                  cases res with
                  | one c2 =>
                      cases h
                      simpa [noLazyL, Bool.and_eq_true] using
                        ⟨by simpa [noLazyRes] using hres, hct⟩
                  | split a sk b =>
                      cases h
                      simp only [noLazyRes, Bool.and_eq_true] at hres
                      simpa [noLazyL, Bool.and_eq_true] using ⟨hres.1, hres.2, hct⟩
            · rw [if_neg hlt] at h
              cases hsa : setAux order f store kt ct k v dh with
              | none => rw [hsa] at h; cases h
              | some r =>
                  obtain ⟨ks2, cs2, dh2⟩ := r
                  have := ihA store kt ct k v dh ks2 cs2 _ hct hsa
                  rw [hsa] at h
                  cases h
                  simpa [noLazyL, Bool.and_eq_true] using ⟨hc, this⟩

theorem delN_noLazy {V : Type} :
    ∀ (fuel : Nat),
      (∀ (store : Store V) (n : Node V) (k : K) (dh : List Handle) n' dh',
        noLazyB n = true → delN fuel store n k dh = some (n', dh') →
        noLazyB n' = true) ∧
      (∀ (store : Store V) (ks : List K) (cs : List (Node V)) (k : K)
          (dh : List Handle) cs' dh',
        noLazyL cs = true → delAux fuel store ks cs k dh = some (cs', dh') →
        noLazyL cs' = true) := by
  intro fuel
  induction fuel with
  | zero =>
      constructor
      · intro store n k dh n' dh' _ h; simp [delN] at h
      · intro store ks cs k dh cs' dh' _ h; simp [delAux] at h
  | succ f ih =>
      obtain ⟨ihN, ihA⟩ := ih
      constructor
      · intro store n k dh n' dh' hnl h
        match n with
        | .leaf ks vs =>
            simp only [delN] at h
            cases hld : leafDel ks vs k with
            | none => rw [hld] at h; cases h; rfl
            | some r => obtain ⟨ks2, vs2⟩ := r; rw [hld] at h; cases h; rfl
        | .node ks cs =>
            have hnl' : noLazyL cs = true := hnl
            simp only [delN] at h
            cases hda : delAux f store ks cs k dh with
            | none => rw [hda] at h; cases h
            | some r =>
                obtain ⟨cs2, dh2⟩ := r
                rw [hda] at h
                cases h
                exact ihA store ks cs k dh cs2 _ hnl' hda
        | .lazy h0 => simp [noLazyB] at hnl
        | .lazyCached h0 m => simp [noLazyB] at hnl
      · intro store ks cs k dh cs' dh' hnl h
        match ks, cs with
        | _, [] => simp [delAux] at h
        | [], c :: rest =>
            have hc : noLazyB c = true := by
              simp only [noLazyL, Bool.and_eq_true] at hnl; exact hnl.1
            have hrest : noLazyL rest = true := by
              simp only [noLazyL, Bool.and_eq_true] at hnl; exact hnl.2
            simp only [delAux] at h
            cases hdn : delN f store c k dh with
            | none => rw [hdn] at h; cases h
            | some r =>
                obtain ⟨c2, dh2⟩ := r
                rw [hdn] at h
                cases h
                simpa [noLazyL, Bool.and_eq_true] using
                  ⟨ihN store c k dh c2 _ hc hdn, hrest⟩
        | k0 :: kt, c :: ct =>
            have hc : noLazyB c = true := by
              simp only [noLazyL, Bool.and_eq_true] at hnl; exact hnl.1
            have hct : noLazyL ct = true := by
              simp only [noLazyL, Bool.and_eq_true] at hnl; exact hnl.2
            simp only [delAux] at h
            by_cases hlt : k < k0
            · rw [if_pos hlt] at h
              cases hdn : delN f store c k dh with
              | none => rw [hdn] at h; cases h
              | some r =>
                  obtain ⟨c2, dh2⟩ := r
                  rw [hdn] at h
                  cases h
                  simpa [noLazyL, Bool.and_eq_true] using
                    ⟨ihN store c k dh c2 _ hc hdn, hct⟩
            · rw [if_neg hlt] at h
              cases hda : delAux f store kt ct k dh with
              | none => rw [hda] at h; cases h
              | some r =>
                  obtain ⟨cs2, dh2⟩ := r
                  rw [hda] at h
                  cases h
                  simpa [noLazyL, Bool.and_eq_true] using
                    ⟨hc, ihA store kt ct k dh cs2 _ hct hda⟩

/-- Trees built only in memory by `create`, `set` and `delete` (never loaded
from a serialized root and never refreshed by `update`). -/
inductive InMemReach (V : Type) : Tree V → Prop where
  | create (order : Nat) : InMemReach V (createT V order)
  | set (fuel : Nat) (store : Store V) (t : Tree V) (k : K) (v : V)
      (dh : List Handle) (t' : Tree V) (dh' : List Handle) :
      InMemReach V t → setT fuel store t k v dh = some (t', dh') → InMemReach V t'
  | del (fuel : Nat) (store : Store V) (t : Tree V) (k : K)
      (dh : List Handle) (t' : Tree V) (dh' : List Handle) :
      InMemReach V t → delT fuel store t k dh = some (t', dh') → InMemReach V t'

theorem InMemReach.noLazy {V : Type} {t : Tree V} (h : InMemReach V t) :
    noLazyB t.root = true := by
  induction h with
  | create order => rfl
  | set fuel store t0 k v dh t' dh' _ hset ih =>
      cases hsn : setN t0.order fuel store t0.root k v dh with
      | none => simp [setT, hsn] at hset
      | some r =>
          obtain ⟨res, dh2⟩ := r
          have hres := ((setN_noLazy t0.order fuel).1 store t0.root k v dh res _ ih hsn)
          cases res with
          | one n =>
              simp only [setT, hsn] at hset
              cases hset
              simpa [noLazyRes] using hres
          | split a sk b =>
              simp only [setT, hsn] at hset
              cases hset
              simp only [noLazyRes, Bool.and_eq_true] at hres
              simpa [noLazyB, noLazyL, Bool.and_eq_true] using ⟨hres.1, hres.2⟩
  | del fuel store t0 k dh t' dh' _ hdel ih =>
      cases hdn : delN fuel store t0.root k dh with
      | none => simp [delT, hdn] at hdel
      | some r =>
          obtain ⟨n2, dh2⟩ := r
          simp only [delT, hdn] at hdel
          cases hdel
          exact (delN_noLazy fuel).1 store t0.root k dh n2 _ ih hdn

/-- C10: for every chunked B-tree built only in memory by
`create`/`set`/`delete`, `evict(n)` leaves `workingSetSize()` unchanged for
every count hint `n`: eviction discards only cached resolutions of lazy
handle-backed nodes, and such a tree has none. -/
theorem evict_preserves_wss_inmem {V : Type} (t : Tree V) (h : InMemReach V t)
    (hint : Int) : wssT (evictT t hint) = wssT t := by
  obtain ⟨u, hu⟩ := evictN_noLazy t.root hint h.noLazy
  simp [evictT, wssT, hu]

theorem evict_preserves_wss_inmem_witness :
    wssT (evictT (⟨3, Node.leaf ["a"] [1], []⟩ : Tree Nat) 5) =
      wssT (⟨3, Node.leaf ["a"] [1], []⟩ : Tree Nat) :=
  evict_preserves_wss_inmem _
    (InMemReach.set 2 [] (createT Nat 3) "a" 1 [] ⟨3, Node.leaf ["a"] [1], []⟩ []
      (InMemReach.create 3) rfl) 5

/-! ## SequencedState (`sequencedState.ts`, claim C6) -/

/-- JavaScript `Map.prototype.get` on an insertion-ordered association list. -/
def mapGet {κ V : Type} [DecidableEq κ] : List (κ × V) → κ → Option V
  | [], _ => none
  | (k0, v0) :: t, k => if k0 = k then some v0 else mapGet t k

/-- JavaScript `Map.prototype.set`: update in place when present (keeping the
entry's position), append otherwise. -/
def mapSet {κ V : Type} [DecidableEq κ] : List (κ × V) → κ → V → List (κ × V)
  | [], k, v => [(k, v)]
  | (k0, v0) :: t, k, v => if k0 = k then (k0, v) :: t else (k0, v0) :: mapSet t k v

/-- JavaScript `Map.prototype.delete`: remove the (unique) matching entry. -/
def mapDelete {κ V : Type} [DecidableEq κ] : List (κ × V) → κ → List (κ × V)
  | [], _ => []
  | (k0, v0) :: t, k => if k0 = k then t else (k0, v0) :: mapDelete t k

/-- JavaScript `Set.prototype.add` on an insertion-ordered list. -/
def setAdd {κ : Type} [DecidableEq κ] (s : List κ) (k : κ) : List κ :=
  if k ∈ s then s else s ++ [k]

/-- One sequenced mutation `[sequenceNumber, key, value?]`; `none` value is a
delete. -/
abbrev SOp (κ V : Type) := Int × κ × Option V

/-- `SequencedState`: acked entry cache, unflushed mutation log, and the set
of mutated keys.  The `onEvict` callback is modelled by returning the
eviction hint to the controller (see `applySeqEffect`). -/
structure SState (κ V : Type) where
  allEntries : List (κ × V)
  operations : List (SOp κ V)
  modified : List κ
  cacheSizeHint : Nat

def initS (κ V : Type) (cacheSizeHint : Nat) : SState κ V :=
  { allEntries := [], operations := [], modified := [], cacheSizeHint := cacheSizeHint }

/-- The deletion walk of `SequencedState.evict`: drop non-modified keys in
insertion order, decrementing `toEvict` per deletion and breaking when it
hits zero. -/
def evictWalk {κ V : Type} [DecidableEq κ] (modified : List κ) :
    List (κ × V) → Int → List (κ × V)
  | [], _ => []
  | (k, v) :: t, toEvict =>
      if k ∈ modified then
        if toEvict = 0 then (k, v) :: t
        else (k, v) :: evictWalk modified t toEvict
      else
        if toEvict - 1 = 0 then t
        else evictWalk modified t (toEvict - 1)

/-- `SequencedState.evict(workingSetSizeOverride?)`.  The second component is
the `evictionCountHint` passed to `onEvict` when eviction fires (the
controller evicts the B-tree with it when attached). -/
def evictS {κ V : Type} [DecidableEq κ] (st : SState κ V)
    (override : Option Nat) : SState κ V × Option Int :=
  let workingSetSize := max st.allEntries.length (override.getD 0)
  if workingSetSize > st.cacheSizeHint then
    let evictableCount : Int := (workingSetSize : Int) - st.modified.length
    if evictableCount > (st.cacheSizeHint : Int) / 2 then
      let toEvict : Int := (st.cacheSizeHint : Int) / 2
      ({ st with allEntries := evictWalk st.modified st.allEntries toEvict },
        some toEvict)
    else (st, none)
  else (st, none)

/-- `SequencedState.cache`. -/
def cacheS {κ V : Type} [DecidableEq κ] (st : SState κ V) (k : κ) (v : V) :
    SState κ V × Option Int :=
  evictS { st with allEntries := mapSet st.allEntries k v } none

/-- `SequencedState.set`. -/
def setS {κ V : Type} [DecidableEq κ] (st : SState κ V) (k : κ) (v : V)
    (seq : Int) : SState κ V × Option Int :=
  evictS { st with
      modified := setAdd st.modified k,
      operations := st.operations ++ [(seq, k, some v)],
      allEntries := mapSet st.allEntries k v } none

/-- `SequencedState.delete`. -/
def deleteS {κ V : Type} [DecidableEq κ] (st : SState κ V) (k : κ)
    (seq : Int) : SState κ V × Option Int :=
  evictS { st with
      modified := setAdd st.modified k,
      operations := st.operations ++ [(seq, k, none)],
      allEntries := mapDelete st.allEntries k } none

/-- `SequencedState.clear`. -/
def clearS {κ V : Type} (st : SState κ V) : SState κ V :=
  { st with allEntries := [], operations := [], modified := [] }

/-- `SequencedState.flush(referenceSequenceNumber)`: early-return on an empty
log; otherwise clear `modified`, splice off the leading run of operations
with `sequenceNumber ≤ referenceSequenceNumber`, and re-add the keys of the
remaining operations. -/
def flushS {κ V : Type} [DecidableEq κ] (st : SState κ V) (refSeq : Int) :
    SState κ V :=
  if st.operations.length = 0 then st
  else
    let remaining := st.operations.dropWhile (fun op => decide (op.1 ≤ refSeq))
    { st with
        operations := remaining,
        modified := remaining.foldl (fun m op => setAdd m op.2.1) [] }

theorem mem_setAdd {κ : Type} [DecidableEq κ] (s : List κ) (k x : κ) :
    x ∈ setAdd s k ↔ x ∈ s ∨ x = k := by
  unfold setAdd
  split
  · next h => exact ⟨Or.inl, fun | .inl hx => hx | .inr hx => hx ▸ h⟩
  · simp

theorem mem_foldl_setAdd {κ V : Type} [DecidableEq κ]
    (l : List (SOp κ V)) (init : List κ) (x : κ) :
    x ∈ l.foldl (fun m op => setAdd m op.2.1) init ↔
      x ∈ init ∨ ∃ op ∈ l, op.2.1 = x := by
  induction l generalizing init with
  | nil => simp
  | cons op t ih =>
      simp only [List.foldl_cons, ih, mem_setAdd, List.mem_cons]
      constructor
      · rintro (⟨hx | hx⟩ | ⟨op', hop', hx⟩)
        · exact Or.inl hx
        · exact Or.inr ⟨op, Or.inl rfl, hx.symm⟩
        · exact Or.inr ⟨op', Or.inr hop', hx⟩
      · rintro (hx | ⟨op', hop' | hop', hx⟩)
        · exact Or.inl (Or.inl hx)
        · exact Or.inl (Or.inr (hop' ▸ hx.symm))
        · exact Or.inr ⟨op', hop', hx⟩

theorem dropWhile_le_eq_filter {κ V : Type}
    (l : List (SOp κ V)) (refSeq : Int)
    (hsorted : l.Pairwise (fun a b => a.1 ≤ b.1)) :
    l.dropWhile (fun op => decide (op.1 ≤ refSeq)) =
      l.filter (fun op => decide (refSeq < op.1)) := by
  induction l with
  | nil => rfl
  | cons op t ih =>
      rcases List.pairwise_cons.mp hsorted with ⟨hall, htail⟩
      by_cases hle : op.1 ≤ refSeq
      · have h1 : decide (op.1 ≤ refSeq) = true := decide_eq_true hle
        have h2 : decide (refSeq < op.1) = false := decide_eq_false (not_lt.mpr hle)
        simp only [List.dropWhile_cons, List.filter_cons, h1, h2, if_true, if_false,
          Bool.false_eq_true, ite_false, ite_true]
        exact ih htail
      · have hgt : refSeq < op.1 := not_le.mp hle
        have h1 : decide (op.1 ≤ refSeq) = false := decide_eq_false hle
        have h2 : decide (refSeq < op.1) = true := decide_eq_true hgt
        simp only [List.dropWhile_cons, List.filter_cons, h1, h2, if_true, if_false,
          Bool.false_eq_true, ite_false, ite_true]
        rw [show List.filter (fun op => decide (refSeq < op.1)) t = t from
          List.filter_eq_self.mpr (fun b hb =>
            decide_eq_true (lt_of_lt_of_le hgt (hall b hb)))]

/-- C6: for every `SequencedState` whose operation log is ordered by
nondecreasing sequence number (and whose `modified` set is, as maintained by
every mutator, the key set of the log), `flush(refSeq)` removes exactly the
operations with `sequence ≤ refSeq` and rebuilds `modified` as the union of
the remaining operations' keys. -/
theorem flushS_removes_le_and_rebuilds {κ V : Type} [DecidableEq κ]
    (st : SState κ V) (refSeq : Int)
    (hsorted : st.operations.Pairwise (fun a b => a.1 ≤ b.1))
    (hmod : st.modified = st.operations.foldl (fun m op => setAdd m op.2.1) []) :
    (flushS st refSeq).operations =
        st.operations.filter (fun op => decide (refSeq < op.1)) ∧
      ∀ x, x ∈ (flushS st refSeq).modified ↔
        ∃ op ∈ (flushS st refSeq).operations, op.2.1 = x := by
  by_cases hempty : st.operations.length = 0
  · have hnil : st.operations = [] := List.length_eq_zero.mp hempty
    constructor
    · simp [flushS, hempty, hnil]
    · intro x
      simp [flushS, hempty, hnil, hmod]
  · have hdrop := dropWhile_le_eq_filter st.operations refSeq hsorted
    constructor
    · simp [flushS, hempty, hdrop]
    · intro x
      simp only [flushS, if_neg hempty, hdrop, mem_foldl_setAdd,
        List.not_mem_nil, false_or]

theorem flushS_removes_le_and_rebuilds_witness :
    ((flushS (κ := String) (V := Nat)
        { allEntries := [("a", 5)], operations := [(1, "a", some 5), (2, "b", none)],
          modified := ["a", "b"], cacheSizeHint := 5000 } 1).operations =
      List.filter (fun op => decide ((1 : Int) < op.1))
        [(1, "a", some 5), (2, "b", none)]) ∧
    ∀ x, x ∈ (flushS (κ := String) (V := Nat)
        { allEntries := [("a", 5)], operations := [(1, "a", some 5), (2, "b", none)],
          modified := ["a", "b"], cacheSizeHint := 5000 } 1).modified ↔
      ∃ op ∈ (flushS (κ := String) (V := Nat)
        { allEntries := [("a", 5)], operations := [(1, "a", some 5), (2, "b", none)],
          modified := ["a", "b"], cacheSizeHint := 5000 } 1).operations, op.2.1 = x :=
  flushS_removes_le_and_rebuilds _ 1 (by decide) (by decide)

/-! ## PendingState (`pendingState.ts`, claim C9) -/

/-- A `pendingKeys` entry `{ latestValue?, latestUpdateNumber, isDeleted }`. -/
structure PEntry (V : Type) where
  latestValue : Option V
  latestUpdateNumber : Nat
  isDeleted : Bool
  deriving DecidableEq

/-- `PendingState`: monotone update counter, monotone ack counter, the
pending-key map, and the clear bookkeeping. -/
structure PState (κ V : Type) where
  updateNumber : Nat
  ackedUpdateNumber : Nat
  pendingKeys : List (κ × PEntry V)
  pendingClearCount : Int
  latestClearUpdateNumber : Int
  deriving DecidableEq

def initP (κ V : Type) : PState κ V :=
  { updateNumber := 0, ackedUpdateNumber := 0, pendingKeys := [],
    pendingClearCount := 0, latestClearUpdateNumber := -1 }

/-- `PendingState.set`: bump the update counter and store
`{latestValue: value, latestUpdateNumber, isDeleted: false}` for the key
(insert or in-place overwrite, like `Map.set`). -/
def psetP {κ V : Type} [DecidableEq κ] (st : PState κ V) (k : κ) (v : V) :
    PState κ V :=
  { st with
      updateNumber := st.updateNumber + 1,
      pendingKeys := mapSet st.pendingKeys k
        ⟨some v, st.updateNumber + 1, false⟩ }

/-- `PendingState.delete`: bump the update counter and store
`{latestValue: undefined, latestUpdateNumber, isDeleted: true}`. -/
def pdelP {κ V : Type} [DecidableEq κ] (st : PState κ V) (k : κ) : PState κ V :=
  { st with
      updateNumber := st.updateNumber + 1,
      pendingKeys := mapSet st.pendingKeys k
        ⟨none, st.updateNumber + 1, true⟩ }

/-- `PendingState.clear`. -/
def pclearP {κ V : Type} (st : PState κ V) : PState κ V :=
  { st with
      updateNumber := st.updateNumber + 1,
      pendingClearCount := st.pendingClearCount + 1,
      latestClearUpdateNumber := (st.updateNumber + 1 : Nat) }

/-- `PendingState.ackModify`: bump the ack counter, assert the key is
present (`none` on assertion failure), and evict the entry when its
`latestUpdateNumber` is covered by the acks. -/
def ackModifyP {κ V : Type} [DecidableEq κ] (st : PState κ V) (k : κ) :
    Option (PState κ V) :=
  match mapGet st.pendingKeys k with
  | none => none
  | some e =>
      some { st with
          ackedUpdateNumber := st.ackedUpdateNumber + 1,
          pendingKeys :=
            if e.latestUpdateNumber ≤ st.ackedUpdateNumber + 1 then
              mapDelete st.pendingKeys k
            else st.pendingKeys }

/-- `PendingState.ackClear`. -/
def ackClearP {κ V : Type} (st : PState κ V) : PState κ V :=
  { st with
      ackedUpdateNumber := st.ackedUpdateNumber + 1,
      pendingClearCount := st.pendingClearCount - 1 }

/-- A locally issued mutation. -/
inductive LOp (κ V : Type) where
  | set (k : κ) (v : V)
  | del (k : κ)
  | clear

/-- Submission: apply a local op to `PendingState`. -/
def applyLP {κ V : Type} [DecidableEq κ] (st : PState κ V) : LOp κ V → PState κ V
  | .set k v => psetP st k v
  | .del k => pdelP st k
  | .clear => pclearP st

/-- Acknowledgement of a local op returning from the ordering service. -/
def ackLP {κ V : Type} [DecidableEq κ] (st : PState κ V) :
    LOp κ V → Option (PState κ V)
  | .set k _ => ackModifyP st k
  | .del k => ackModifyP st k
  | .clear => some (ackClearP st)

/-- Does the op write (set or delete) the given key? -/
def writesKey {κ V : Type} [DecidableEq κ] : LOp κ V → κ → Bool
  | .set k' _, k => decide (k' = k)
  | .del k', k => decide (k' = k)
  | .clear, _ => false

/-- 1-based absolute index of the last op writing `k`, scanning `l` whose
first element has index `b`. -/
def lastWrite {κ V : Type} [DecidableEq κ] (k : κ) : List (LOp κ V) → Nat → Option Nat
  | [], _ => none
  | op :: rest, b =>
      match lastWrite k rest (b + 1) with
      | some j => some j
      | none => if writesKey op k then some b else none

/-- Submit every op in order, then process the acknowledgements of the first
`j` ops in submission order. -/
def runAck {κ V : Type} [DecidableEq κ] (ops : List (LOp κ V)) (j : Nat) :
    Option (PState κ V) :=
  (ops.take j).foldlM ackLP (ops.foldl applyLP (initP κ V))

/-! Association-list lemmas. -/

theorem mapSet_cons_pos {κ V : Type} [DecidableEq κ]
    (t : List (κ × V)) (k0 : κ) (v0 : V) (k : κ) (v : V) (h : k0 = k) :
    mapSet ((k0, v0) :: t) k v = (k0, v) :: t := by
  simp [mapSet, h]

theorem mapSet_cons_neg {κ V : Type} [DecidableEq κ]
    (t : List (κ × V)) (k0 : κ) (v0 : V) (k : κ) (v : V) (h : ¬ k0 = k) :
    mapSet ((k0, v0) :: t) k v = (k0, v0) :: mapSet t k v := by
  simp [mapSet, h]

theorem mapGet_mapSet {κ V : Type} [DecidableEq κ]
    (l : List (κ × V)) (k : κ) (v : V) (x : κ) :
    mapGet (mapSet l k v) x = if x = k then some v else mapGet l x := by
  induction l with
  | nil =>
      by_cases hx : x = k
      · subst hx; simp [mapSet, mapGet]
      · have h1 : ¬ k = x := fun h => hx h.symm
        simp [mapSet, mapGet, hx, h1]
  | cons p t ih =>
      obtain ⟨k0, v0⟩ := p
      by_cases h0 : k0 = k
      · subst h0
        rw [mapSet_cons_pos t k0 v0 k0 v rfl]
        by_cases hx : x = k0
        · subst hx; simp [mapGet]
        · have h1 : ¬ k0 = x := fun h => hx h.symm
          simp [mapGet, hx, h1]
      · rw [mapSet_cons_neg t k0 v0 k v h0]
        by_cases hx : k0 = x
        · subst hx
          have h1 : ¬ k0 = k := h0
          have h2 : ¬ (k0 = k) := h0
          simp [mapGet, ih, h1]
        · simp [mapGet, hx, ih]

theorem mapGet_eq_none_of_not_mem {κ V : Type} [DecidableEq κ]
    (l : List (κ × V)) (k : κ) (h : k ∉ l.map Prod.fst) : mapGet l k = none := by
  induction l with
  | nil => rfl
  | cons p t ih =>
      obtain ⟨k0, v0⟩ := p
      simp only [List.map_cons, List.mem_cons] at h
      push_neg at h
      have h1 : ¬ k0 = k := fun he => h.1 he.symm
      simp [mapGet, h1, ih h.2]

theorem mapDelete_cons_pos {κ V : Type} [DecidableEq κ]
    (t : List (κ × V)) (k0 : κ) (v0 : V) (k : κ) (h : k0 = k) :
    mapDelete ((k0, v0) :: t) k = t := by
  simp [mapDelete, h]

theorem mapDelete_cons_neg {κ V : Type} [DecidableEq κ]
    (t : List (κ × V)) (k0 : κ) (v0 : V) (k : κ) (h : ¬ k0 = k) :
    mapDelete ((k0, v0) :: t) k = (k0, v0) :: mapDelete t k := by
  simp [mapDelete, h]

theorem mapDelete_sublist {κ V : Type} [DecidableEq κ]
    (l : List (κ × V)) (k : κ) : (mapDelete l k).Sublist l := by
  induction l with
  | nil => exact List.Sublist.refl _
  | cons p t ih =>
      obtain ⟨k0, v0⟩ := p
      by_cases h0 : k0 = k
      · rw [mapDelete_cons_pos t k0 v0 k h0]
        exact List.sublist_cons_self _ _
      · rw [mapDelete_cons_neg t k0 v0 k h0]
        exact ih.cons₂ _

theorem mapGet_mapDelete {κ V : Type} [DecidableEq κ]
    (l : List (κ × V)) (k : κ) (x : κ) (hnd : (l.map Prod.fst).Nodup) :
    mapGet (mapDelete l k) x = if x = k then none else mapGet l x := by
  induction l with
  | nil => simp [mapDelete, mapGet]
  | cons p t ih =>
      obtain ⟨k0, v0⟩ := p
      simp only [List.map_cons, List.nodup_cons] at hnd
      by_cases h0 : k0 = k
      · subst h0
        rw [mapDelete_cons_pos t k0 v0 k0 rfl]
        by_cases hx : x = k0
        · subst hx
          simp [mapGet_eq_none_of_not_mem t x hnd.1]
        · have h1 : ¬ k0 = x := fun h => hx h.symm
          simp [mapGet, hx, h1]
      · rw [mapDelete_cons_neg t k0 v0 k h0]
        by_cases hx : k0 = x
        · subst hx
          simp [mapGet, h0]
        · simp [mapGet, hx, ih hnd.2]

theorem mem_keys_mapSet {κ V : Type} [DecidableEq κ]
    (l : List (κ × V)) (k : κ) (v : V) (x : κ) :
    x ∈ (mapSet l k v).map Prod.fst ↔ x ∈ l.map Prod.fst ∨ x = k := by
  induction l with
  | nil => simp [mapSet]
  | cons p t ih =>
      obtain ⟨k0, v0⟩ := p
      by_cases h0 : k0 = k
      · subst h0
        rw [mapSet_cons_pos t k0 v0 k0 v rfl]
        simp only [List.map_cons, List.mem_cons]
        tauto
      · rw [mapSet_cons_neg t k0 v0 k v h0]
        simp only [List.map_cons, List.mem_cons, ih]
        tauto

theorem nodup_keys_mapSet {κ V : Type} [DecidableEq κ]
    (l : List (κ × V)) (k : κ) (v : V) (hnd : (l.map Prod.fst).Nodup) :
    ((mapSet l k v).map Prod.fst).Nodup := by
  induction l with
  | nil => simp [mapSet]
  | cons p t ih =>
      obtain ⟨k0, v0⟩ := p
      simp only [List.map_cons, List.nodup_cons] at hnd
      by_cases h0 : k0 = k
      · subst h0
        rw [mapSet_cons_pos t k0 v0 k0 v rfl]
        simp only [List.map_cons, List.nodup_cons]
        exact hnd
      · rw [mapSet_cons_neg t k0 v0 k v h0]
        simp only [List.map_cons, List.nodup_cons, mem_keys_mapSet]
        refine ⟨fun h => ?_, ih hnd.2⟩
        rcases h with h | h
        · exact hnd.1 h
        · exact h0 (h ▸ rfl)

theorem lastWrite_cons_inner_some {κ V : Type} [DecidableEq κ]
    (k : κ) (op : LOp κ V) (l : List (LOp κ V)) (b m : Nat)
    (h : lastWrite k l (b + 1) = some m) :
    lastWrite k (op :: l) b = some m := by
  simp [lastWrite, h]

theorem lastWrite_cons_inner_none_writes {κ V : Type} [DecidableEq κ]
    (k : κ) (op : LOp κ V) (l : List (LOp κ V)) (b : Nat)
    (hin : lastWrite k l (b + 1) = none) (hw : writesKey op k = true) :
    lastWrite k (op :: l) b = some b := by
  simp [lastWrite, hin, hw]

theorem lastWrite_cons_not_writes {κ V : Type} [DecidableEq κ]
    (k : κ) (op : LOp κ V) (l : List (LOp κ V)) (b : Nat)
    (hw : writesKey op k = false) :
    lastWrite k (op :: l) b = lastWrite k l (b + 1) := by
  cases hin : lastWrite k l (b + 1) with
  | some m => simp [lastWrite, hin]
  | none => simp [lastWrite, hin, hw]

theorem lastWrite_ge {κ V : Type} [DecidableEq κ] (k : κ) :
    ∀ (l : List (LOp κ V)) (b i : Nat), lastWrite k l b = some i → b ≤ i := by
  intro l
  induction l with
  | nil => intro b i h; simp [lastWrite] at h
  | cons op t ih =>
      intro b i h
      cases hin : lastWrite k t (b + 1) with
      | some m =>
          rw [lastWrite_cons_inner_some k op t b m hin] at h
          cases h
          exact le_trans (Nat.le_succ b) (ih (b + 1) i hin)
      | none =>
          simp only [lastWrite, hin] at h
          by_cases hw : writesKey op k
          · rw [if_pos hw] at h
            cases h
            exact le_refl _
          · rw [if_neg hw] at h
            cases h

theorem lastWrite_isSome_iff {κ V : Type} [DecidableEq κ] (k : κ) :
    ∀ (l : List (LOp κ V)) (b : Nat),
      (lastWrite k l b).isSome = true ↔ ∃ op ∈ l, writesKey op k = true := by
  intro l
  induction l with
  | nil => intro b; simp [lastWrite]
  | cons op t ih =>
      intro b
      cases hin : lastWrite k t (b + 1) with
      | some m =>
          rw [lastWrite_cons_inner_some k op t b m hin]
          simp only [Option.isSome_some, true_iff]
          obtain ⟨op', hmem, hw'⟩ := (ih (b + 1)).mp (by simp [hin])
          exact ⟨op', List.mem_cons_of_mem op hmem, hw'⟩
      | none =>
          by_cases hw : writesKey op k
          · rw [lastWrite_cons_inner_none_writes k op t b hin hw]
            simp only [Option.isSome_some, true_iff]
            exact ⟨op, List.mem_cons_self op t, hw⟩
          · rw [lastWrite_cons_not_writes k op t b (by simpa using hw)]
            rw [hin]
            constructor
            · intro h; exact absurd h (by simp)
            · rintro ⟨op', hop', hw'⟩
              rcases List.mem_cons.mp hop' with rfl | hmem
              · exact absurd hw' hw
              · have hsome : (lastWrite k t (b + 1)).isSome = true :=
                  (ih (b + 1)).mpr ⟨op', hmem, hw'⟩
                rw [hin] at hsome
                exact absurd hsome (by simp)

theorem lastWrite_append_single {κ V : Type} [DecidableEq κ] (k : κ)
    (op : LOp κ V) :
    ∀ (l : List (LOp κ V)) (b : Nat),
      lastWrite k (l ++ [op]) b =
        if writesKey op k then some (b + l.length) else lastWrite k l b := by
  intro l
  induction l with
  | nil =>
      intro b
      by_cases hw : writesKey op k
      · simp [lastWrite, hw]
      · simp [lastWrite, hw]
  | cons o t ih =>
      intro b
      by_cases hw : writesKey op k
      · have hin : lastWrite k (t ++ [op]) (b + 1) = some (b + 1 + t.length) := by
          rw [ih (b + 1), if_pos hw]
        rw [List.cons_append, lastWrite_cons_inner_some k o (t ++ [op]) b _ hin,
          if_pos hw]
        congr 1
        simp only [List.length_cons]
        omega
      · have hin : lastWrite k (t ++ [op]) (b + 1) = lastWrite k t (b + 1) := by
          rw [ih (b + 1), if_neg hw]
        rw [if_neg hw]
        cases ht : lastWrite k t (b + 1) with
        | some m =>
            rw [List.cons_append,
              lastWrite_cons_inner_some k o (t ++ [op]) b m (hin.trans ht),
              (lastWrite_cons_inner_some k o t b m ht).symm]
        | none =>
            by_cases hwo : writesKey o k
            · rw [List.cons_append,
                lastWrite_cons_inner_none_writes k o (t ++ [op]) b (hin.trans ht) hwo,
                (lastWrite_cons_inner_none_writes k o t b ht hwo).symm]
            · rw [List.cons_append,
                lastWrite_cons_not_writes k o (t ++ [op]) b (by simpa using hwo),
                hin, (lastWrite_cons_not_writes k o t b (by simpa using hwo)).symm]

/-- The pending-key map after submitting all ops and acking the first `j`
in order: an entry is exactly the record of the key's last write when that
write is not yet covered by the acks. -/
def pkInv {κ V : Type} [DecidableEq κ] (ops : List (LOp κ V)) (j : Nat)
    (st : PState κ V) : Prop :=
  ∀ k, match lastWrite k (ops.drop j) (j + 1) with
       | some i => ∃ e, mapGet st.pendingKeys k = some e ∧ e.latestUpdateNumber = i
       | none => mapGet st.pendingKeys k = none

theorem apply_phase {κ V : Type} [DecidableEq κ] (ops : List (LOp κ V)) :
    (ops.foldl applyLP (initP κ V)).updateNumber = ops.length ∧
    (ops.foldl applyLP (initP κ V)).ackedUpdateNumber = 0 ∧
    ((ops.foldl applyLP (initP κ V)).pendingKeys.map Prod.fst).Nodup ∧
    pkInv ops 0 (ops.foldl applyLP (initP κ V)) := by
  induction ops using List.reverseRecOn with
  | nil => exact ⟨rfl, rfl, List.nodup_nil, fun k => rfl⟩
  | append_singleton l op ih =>
      obtain ⟨hupd, hack, hnd, hinv⟩ := ih
      simp only [List.foldl_append, List.foldl_cons, List.foldl_nil]
      cases op with
      | clear =>
          refine ⟨?_, ?_, ?_, fun k => ?_⟩
          · simp [applyLP, pclearP, hupd, List.length_append]
          · simpa [applyLP, pclearP] using hack
          · simpa [applyLP, pclearP] using hnd
          · have hw : writesKey (LOp.clear : LOp κ V) k = false := rfl
            have hinv' := hinv k
            rw [List.drop_zero] at hinv'
            simp only [pkInv, List.drop_zero] at hinv' ⊢
            rw [lastWrite_append_single k LOp.clear l 1, hw]
            simpa [applyLP, pclearP] using hinv'
      | set k0 v =>
          refine ⟨?_, ?_, ?_, fun k => ?_⟩
          · simp [applyLP, psetP, hupd, List.length_append]
          · simpa [applyLP, psetP] using hack
          · simpa [applyLP, psetP] using
              nodup_keys_mapSet (l.foldl applyLP (initP κ V)).pendingKeys k0
                ⟨some v, (l.foldl applyLP (initP κ V)).updateNumber + 1, false⟩ hnd
          · have hinv' := hinv k
            rw [List.drop_zero] at hinv'
            simp only [pkInv, List.drop_zero] at hinv' ⊢
            rw [lastWrite_append_single k (LOp.set k0 v) l 1]
            by_cases hk : k0 = k
            · have hw : writesKey (LOp.set k0 v) k = true := by
                simp [writesKey, hk]
              rw [hw]
              simp only [if_true, ite_true]
              refine ⟨⟨some v, (l.foldl applyLP (initP κ V)).updateNumber + 1, false⟩, ?_, ?_⟩
              · show mapGet (mapSet _ k0 _) k = _
                rw [mapGet_mapSet]
                simp [hk.symm]
              · simp [hupd]
                omega
            · have hw : writesKey (LOp.set k0 v) k = false := by
                simp [writesKey, hk]
              rw [hw]
              simp only [Bool.false_eq_true, if_false, ite_false]
              have hget : mapGet (applyLP (l.foldl applyLP (initP κ V)) (LOp.set k0 v)).pendingKeys k
                  = mapGet (l.foldl applyLP (initP κ V)).pendingKeys k := by
                show mapGet (mapSet _ k0 _) k = _
                rw [mapGet_mapSet]
                have : ¬ k = k0 := fun h => hk h.symm
                simp [this]
              cases hlw : lastWrite k l 1 with
              | some i =>
                  rw [hlw] at hinv'
                  obtain ⟨e, hge, hle⟩ := hinv'
                  exact ⟨e, hget.trans hge, hle⟩
              | none =>
                  rw [hlw] at hinv'
                  exact hget.trans hinv'
      | del k0 =>
          refine ⟨?_, ?_, ?_, fun k => ?_⟩
          · simp [applyLP, pdelP, hupd, List.length_append]
          · simpa [applyLP, pdelP] using hack
          · simpa [applyLP, pdelP] using
              nodup_keys_mapSet (l.foldl applyLP (initP κ V)).pendingKeys k0
                ⟨none, (l.foldl applyLP (initP κ V)).updateNumber + 1, true⟩ hnd
          · have hinv' := hinv k
            rw [List.drop_zero] at hinv'
            simp only [pkInv, List.drop_zero] at hinv' ⊢
            rw [lastWrite_append_single k (LOp.del (V := V) k0) l 1]
            by_cases hk : k0 = k
            · have hw : writesKey (LOp.del (V := V) k0) k = true := by
                simp [writesKey, hk]
              rw [hw]
              simp only [if_true, ite_true]
              refine ⟨⟨none, (l.foldl applyLP (initP κ V)).updateNumber + 1, true⟩, ?_, ?_⟩
              · show mapGet (mapSet _ k0 _) k = _
                rw [mapGet_mapSet]
                simp [hk.symm]
              · simp [hupd]
                omega
            · have hw : writesKey (LOp.del (V := V) k0) k = false := by
                simp [writesKey, hk]
              rw [hw]
              simp only [Bool.false_eq_true, if_false, ite_false]
              have hget : mapGet (applyLP (l.foldl applyLP (initP κ V)) (LOp.del k0)).pendingKeys k
                  = mapGet (l.foldl applyLP (initP κ V)).pendingKeys k := by
                show mapGet (mapSet _ k0 _) k = _
                rw [mapGet_mapSet]
                have : ¬ k = k0 := fun h => hk h.symm
                simp [this]
              cases hlw : lastWrite k l 1 with
              | some i =>
                  rw [hlw] at hinv'
                  obtain ⟨e, hge, hle⟩ := hinv'
                  exact ⟨e, hget.trans hge, hle⟩
              | none =>
                  rw [hlw] at hinv'
                  exact hget.trans hinv'

theorem runAck_inv {κ V : Type} [DecidableEq κ] (ops : List (LOp κ V)) :
    ∀ j, j ≤ ops.length →
      ∃ st, runAck ops j = some st ∧ st.ackedUpdateNumber = j ∧
        (st.pendingKeys.map Prod.fst).Nodup ∧ pkInv ops j st := by
  intro j
  induction j with
  | zero =>
      intro _
      obtain ⟨_, hack, hnd, hinv⟩ := apply_phase ops
      exact ⟨ops.foldl applyLP (initP κ V), rfl, hack, hnd, hinv⟩
  | succ j ihj =>
      intro hj1
      have hj : j ≤ ops.length := le_trans (Nat.le_succ j) hj1
      have hjlt : j < ops.length := hj1
      obtain ⟨st, hrun, hack, hnd, hinv⟩ := ihj hj
      have htake : ops.take (j + 1) = ops.take j ++ [ops.get ⟨j, hjlt⟩] := by
        rw [List.take_succ]
        congr 1
        simp [List.getElem?_eq_getElem hjlt]
      have hdropj : ops.drop j = ops.get ⟨j, hjlt⟩ :: ops.drop (j + 1) := by
        simp
      have hstep : runAck ops (j + 1) =
          (runAck ops j).bind (fun s => ackLP s (ops.get ⟨j, hjlt⟩)) := by
        unfold runAck
        rw [htake, List.foldlM_append]
        cases (ops.take j).foldlM ackLP (ops.foldl applyLP (initP κ V)) with
        | none => rfl
        | some s =>
            show (ops.get ⟨j, hjlt⟩ :: []).foldlM ackLP s = _
            cases hcase : ackLP s (ops.get ⟨j, hjlt⟩) with
            | none => simp [List.foldlM, hcase]
            | some s' => simp [List.foldlM, hcase]
      rw [hstep, hrun]
      cases hop : ops.get ⟨j, hjlt⟩ with
      | clear =>
          refine ⟨ackClearP st, by simp [ackLP], by simp [ackClearP, hack], by
            simpa [ackClearP] using hnd, fun k => ?_⟩
          have hw : writesKey (LOp.clear : LOp κ V) k = false := rfl
          have hinv' := hinv k
          rw [hdropj, hop, lastWrite_cons_not_writes k _ _ _ hw] at hinv'
          simpa [ackClearP] using hinv'
      | set k0 v =>
          have hw0 : writesKey (LOp.set k0 v) k0 = true := by simp [writesKey]
          have hinv0 := hinv k0
          rw [hdropj, hop] at hinv0
          cases hin : lastWrite k0 (ops.drop (j + 1)) (j + 1 + 1) with
          | none =>
              rw [lastWrite_cons_inner_none_writes k0 _ _ _ hin hw0] at hinv0
              obtain ⟨e, hge, hle⟩ := hinv0
              refine ⟨PState.mk st.updateNumber (st.ackedUpdateNumber + 1)
                  (mapDelete st.pendingKeys k0) st.pendingClearCount
                  st.latestClearUpdateNumber, ?_, by simp [hack],
                  hnd.sublist ((mapDelete_sublist st.pendingKeys k0).map Prod.fst),
                  fun k => ?_⟩
              · rw [Option.some_bind]
                simp only [ackLP, ackModifyP, hge, hle, hack]
                simp
              · by_cases hk : k = k0
                · subst hk
                  rw [hin]
                  show mapGet (mapDelete st.pendingKeys k) k = none
                  rw [mapGet_mapDelete st.pendingKeys k k hnd]
                  simp
                · have hwk : writesKey (LOp.set k0 v) k = false := by
                    simp [writesKey]
                    exact fun h => hk h.symm
                  have hinv' := hinv k
                  rw [hdropj, hop, lastWrite_cons_not_writes k _ _ _ hwk] at hinv'
                  have hgetk : mapGet (mapDelete st.pendingKeys k0) k
                      = mapGet st.pendingKeys k := by
                    rw [mapGet_mapDelete st.pendingKeys k0 k hnd]
                    simp [hk]
                  cases hlw : lastWrite k (ops.drop (j + 1)) (j + 1 + 1) with
                  | some i =>
                      rw [hlw] at hinv'
                      obtain ⟨e', hge', hle'⟩ := hinv'
                      exact ⟨e', hgetk.trans hge', hle'⟩
                  | none =>
                      rw [hlw] at hinv'
                      exact hgetk.trans hinv'
          | some m =>
              rw [lastWrite_cons_inner_some k0 _ _ _ m hin] at hinv0
              obtain ⟨e, hge, hle⟩ := hinv0
              have hm : j + 1 + 1 ≤ m := lastWrite_ge k0 _ (j + 1 + 1) m hin
              refine ⟨PState.mk st.updateNumber (st.ackedUpdateNumber + 1)
                  st.pendingKeys st.pendingClearCount st.latestClearUpdateNumber,
                  ?_, by simp [hack], hnd, fun k => ?_⟩
              · rw [Option.some_bind]
                simp only [ackLP, ackModifyP, hge, hle, hack]
                have : ¬ m ≤ j + 1 := by omega
                simp [this]
              · by_cases hk : k = k0
                · subst hk
                  rw [hin]
                  exact ⟨e, hge, hle.trans rfl⟩
                · have hwk : writesKey (LOp.set k0 v) k = false := by
                    simp [writesKey]
                    exact fun h => hk h.symm
                  have hinv' := hinv k
                  rw [hdropj, hop, lastWrite_cons_not_writes k _ _ _ hwk] at hinv'
                  exact hinv'
      | del k0 =>
          have hw0 : writesKey (LOp.del (V := V) k0) k0 = true := by simp [writesKey]
          have hinv0 := hinv k0
          rw [hdropj, hop] at hinv0
          cases hin : lastWrite k0 (ops.drop (j + 1)) (j + 1 + 1) with
          | none =>
              rw [lastWrite_cons_inner_none_writes k0 _ _ _ hin hw0] at hinv0
              obtain ⟨e, hge, hle⟩ := hinv0
              refine ⟨PState.mk st.updateNumber (st.ackedUpdateNumber + 1)
                  (mapDelete st.pendingKeys k0) st.pendingClearCount
                  st.latestClearUpdateNumber, ?_, by simp [hack],
                  hnd.sublist ((mapDelete_sublist st.pendingKeys k0).map Prod.fst),
                  fun k => ?_⟩
              · rw [Option.some_bind]
                simp only [ackLP, ackModifyP, hge, hle, hack]
                simp
              · by_cases hk : k = k0
                · subst hk
                  rw [hin]
                  show mapGet (mapDelete st.pendingKeys k) k = none
                  rw [mapGet_mapDelete st.pendingKeys k k hnd]
                  simp
                · have hwk : writesKey (LOp.del (V := V) k0) k = false := by
                    simp [writesKey]
                    exact fun h => hk h.symm
                  have hinv' := hinv k
                  rw [hdropj, hop, lastWrite_cons_not_writes k _ _ _ hwk] at hinv'
                  have hgetk : mapGet (mapDelete st.pendingKeys k0) k
                      = mapGet st.pendingKeys k := by
                    rw [mapGet_mapDelete st.pendingKeys k0 k hnd]
                    simp [hk]
                  cases hlw : lastWrite k (ops.drop (j + 1)) (j + 1 + 1) with
                  | some i =>
                      rw [hlw] at hinv'
                      obtain ⟨e', hge', hle'⟩ := hinv'
                      exact ⟨e', hgetk.trans hge', hle'⟩
                  | none =>
                      rw [hlw] at hinv'
                      exact hgetk.trans hinv'
          | some m =>
              rw [lastWrite_cons_inner_some k0 _ _ _ m hin] at hinv0
              obtain ⟨e, hge, hle⟩ := hinv0
              have hm : j + 1 + 1 ≤ m := lastWrite_ge k0 _ (j + 1 + 1) m hin
              refine ⟨PState.mk st.updateNumber (st.ackedUpdateNumber + 1)
                  st.pendingKeys st.pendingClearCount st.latestClearUpdateNumber,
                  ?_, by simp [hack], hnd, fun k => ?_⟩
              · rw [Option.some_bind]
                simp only [ackLP, ackModifyP, hge, hle, hack]
                have : ¬ m ≤ j + 1 := by omega
                simp [this]
              · by_cases hk : k = k0
                · subst hk
                  rw [hin]
                  exact ⟨e, hge, hle.trans rfl⟩
                · have hwk : writesKey (LOp.del (V := V) k0) k = false := by
                    simp [writesKey]
                    exact fun h => hk h.symm
                  have hinv' := hinv k
                  rw [hdropj, hop, lastWrite_cons_not_writes k _ _ _ hwk] at hinv'
                  exact hinv'

/-- C9: for every sequence of local set/delete/clear calls whose
acknowledgements arrive in submission order, after processing the acks of
the first `j` ops no `ackModify` assertion fires, and a key's entry is
present in `PendingState` exactly while the key still has unacknowledged
writes: once all local writes for a key are acked the entry is evicted, and
an entry is removed only at the ack covering its last write. -/
theorem pending_in_order_ack_presence {κ V : Type} [DecidableEq κ]
    (ops : List (LOp κ V)) (j : Nat) (hj : j ≤ ops.length) :
    ∃ st, runAck ops j = some st ∧
      ∀ k, (mapGet st.pendingKeys k).isSome = true ↔
        ∃ op ∈ ops.drop j, writesKey op k = true := by
  obtain ⟨st, hrun, _, _, hinv⟩ := runAck_inv ops j hj
  refine ⟨st, hrun, fun k => ?_⟩
  rw [← lastWrite_isSome_iff k (ops.drop j) (j + 1)]
  have hinv' := hinv k
  cases hlw : lastWrite k (ops.drop j) (j + 1) with
  | some i =>
      rw [hlw] at hinv'
      obtain ⟨e, hge, _⟩ := hinv'
      simp [hge, hlw]
  | none =>
      rw [hlw] at hinv'
      simp [hinv', hlw]

theorem pending_in_order_ack_presence_witness :
    2 ≤ ([LOp.set "a" 1, LOp.clear, LOp.set "b" 2] : List (LOp String Nat)).length ∧
    ∃ st, runAck ([LOp.set "a" 1, LOp.clear, LOp.set "b" 2] : List (LOp String Nat)) 2
        = some st ∧
      ∀ k, (mapGet st.pendingKeys k).isSome = true ↔
        ∃ op ∈ ([LOp.set "a" 1, LOp.clear,
            LOp.set "b" 2] : List (LOp String Nat)).drop 2, writesKey op k = true :=
  ⟨by decide, pending_in_order_ack_presence _ 2 (by decide)⟩

/-! ## The `SharedPartialMap` controller (claims C3 and C7) -/

/-- Keys as they cross the public `set`/`delete` boundary: JavaScript callers
can pass `undefined`/`null`, embedded as `none`. -/
abbrev JKey := Option String

/-- The state of an outstanding flush: `undefined` (none pending), a pending
upload promise, or `null` (flush op submitted, awaiting its ack). -/
inductive FlushPhase where
  | noFlush
  | uploading
  | awaitingAck
  deriving DecidableEq

/-- An op submitted to the ordering service. -/
inductive COp (V : Type) where
  | setOp (k : JKey) (v : V)
  | delOp (k : JKey)
  | clearOp
  | flushOp (u : FlushOutput) (refSeq : Int)

/-- The controller state of `SharedPartialMap`. -/
structure CState (V : Type) where
  btree : Tree V
  seq : SState JKey V
  pend : PState JKey V
  flushThreshold : Nat
  refSequenceNumberOfLastFlush : Int
  pendingFlush : FlushPhase
  attached : Bool
  isLeader : Bool

/-- Apply the result of a `SequencedState` call: install the new cache state
and, when eviction fired `onEvict` and the map is attached, evict the B-tree
with the hint. -/
def applySeqEffect {V : Type} (st : CState V) (p : SState JKey V × Option Int) :
    CState V :=
  { st with
      seq := p.1,
      btree := match p.2 with
        | some hint => if st.attached then evictT st.btree hint else st.btree
        | none => st.btree }

/-- `SharedPartialMap.workingSetSize`. -/
def workingSetSizeC {V : Type} (st : CState V) : Nat :=
  max st.seq.allEntries.length (wssT st.btree) + st.pend.pendingKeys.length

/-- `SharedPartialMap.tryStartFlush`: when no flush is pending and the
unflushed change count exceeds the threshold, emit `StartFlush` and start the
upload (the upload itself is asynchronous, so only the phase changes here). -/
def tryStartFlushC {V : Type} (st : CState V) : CState V :=
  if st.pendingFlush = .noFlush ∧ st.seq.modified.length > st.flushThreshold then
    { st with pendingFlush := .uploading }
  else st

/-- `SharedPartialMap.set`: reject `undefined`/`null` keys before any state
change; otherwise record the pending write (attached) or emulate an
immediate ack (detached), and submit a `Set` op only when attached. -/
def setC {V : Type} (st : CState V) (k : JKey) (v : V) :
    Except String (CState V × List (COp V)) :=
  if k = none then .error "Undefined and null keys are not supported"
  else
    if st.attached then
      let st1 := { st with pend := psetP st.pend k v }
      let st2 := applySeqEffect st1 (evictS st1.seq (some (workingSetSizeC st1)))
      .ok (st2, [.setOp k v])
    else
      .ok (applySeqEffect st (setS st.seq k v (-1)), [])

/-- `SharedPartialMap.delete`: no key validation is performed; record the
pending delete (attached) or the synthetic acked delete (detached), and
submit a `Delete` op only when attached. -/
def deleteC {V : Type} (st : CState V) (k : JKey) : CState V × List (COp V) :=
  if st.attached then
    ({ st with pend := pdelP st.pend k }, [.delOp k])
  else
    (applySeqEffect st (deleteS st.seq k (-1)), [])

/-- The `Flush` branch of `SharedPartialMap.processCore`: a local flush op
must find the `AwaitingAck` phase (assertion) and clears it; then the update
is applied only when its reference sequence number beats the last applied
flush, otherwise the op is ignored for tree state. -/
def processFlushC {V : Type} (st : CState V) (u : FlushOutput) (refSeq : Int)
    (isLocal : Bool) : Option (CState V) :=
  match (if isLocal then
      (match st.pendingFlush with
        | .awaitingAck => some { st with pendingFlush := .noFlush }
        | _ => none)
    else some st) with
  | none => none
  | some st1 =>
      if refSeq > st1.refSequenceNumberOfLastFlush then
        let st2 := { st1 with
            refSequenceNumberOfLastFlush := refSeq,
            seq := flushS st1.seq refSeq,
            btree := updateT st1.btree u }
        let st3 := applySeqEffect st2 (evictS st2.seq (some (workingSetSizeC st2)))
        some (tryStartFlushC st3)
      else some st1

/-- C3: a `Flush` op whose reference sequence number is at most the last
applied flush's leaves the tree, the `SequencedState`, and the recorded
last-flush reference sequence number unchanged; a local such op still clears
the awaiting-ack flush phase. -/
theorem stale_flush_ignored {V : Type} (st : CState V) (u : FlushOutput)
    (refSeq : Int) (isLocal : Bool)
    (hstale : refSeq ≤ st.refSequenceNumberOfLastFlush)
    (hlocal : isLocal = true → st.pendingFlush = .awaitingAck) :
    processFlushC st u refSeq isLocal =
      some { st with pendingFlush := if isLocal then .noFlush else st.pendingFlush } := by
  cases isLocal with
  | false =>
      simp only [processFlushC, if_false, Bool.false_eq_true, ite_false]
      rw [if_neg (not_lt.mpr hstale)]
  | true =>
      have hp := hlocal rfl
      simp only [processFlushC, hp, if_true, ite_true]
      rw [if_neg (not_lt.mpr hstale)]

theorem stale_flush_ignored_witness :
    ((3 : Int) ≤ (5 : Int) ∧
      processFlushC (V := Nat)
        { btree := createT Nat 32, seq := initS JKey Nat 5000, pend := initP JKey Nat,
          flushThreshold := 1000, refSequenceNumberOfLastFlush := 5,
          pendingFlush := .awaitingAck, attached := true, isLeader := true }
        ⟨9, [9], []⟩ 3 true =
      some { btree := createT Nat 32, seq := initS JKey Nat 5000, pend := initP JKey Nat,
             flushThreshold := 1000, refSequenceNumberOfLastFlush := 5,
             pendingFlush := .noFlush, attached := true, isLeader := true }) :=
  ⟨by decide,
    stale_flush_ignored
      { btree := createT Nat 32, seq := initS JKey Nat 5000, pend := initP JKey Nat,
        flushThreshold := 1000, refSequenceNumberOfLastFlush := 5,
        pendingFlush := .awaitingAck, attached := true, isLeader := true }
      ⟨9, [9], []⟩ 3 true (by decide) (fun _ => rfl)⟩

/-- C7 counterexample: `SharedPartialMap.delete` performs no key validation:
deleting the `null`/`undefined` key on a fresh attached map raises no error,
records a pending delete (PendingState gains an entry), and submits a
`Delete` op — the claim's "raises an error immediately … no state change …
no op is submitted" fails for `delete`. -/
theorem delete_null_key_not_rejected :
    (deleteC (V := Nat)
        { btree := createT Nat 32, seq := initS JKey Nat 5000, pend := initP JKey Nat,
          flushThreshold := 1000, refSequenceNumberOfLastFlush := -1,
          pendingFlush := .noFlush, attached := true, isLeader := false }
        none).2 = [.delOp none] ∧
    (deleteC (V := Nat)
        { btree := createT Nat 32, seq := initS JKey Nat 5000, pend := initP JKey Nat,
          flushThreshold := 1000, refSequenceNumberOfLastFlush := -1,
          pendingFlush := .noFlush, attached := true, isLeader := false }
        none).1.pend.pendingKeys = [(none, ⟨none, 1, true⟩)] :=
  ⟨rfl, rfl⟩

/-- C7 (amended): `set` with an `undefined`/`null` key raises immediately —
before any state change or op submission — while `delete` performs no such
validation and proceeds as an ordinary delete (recording the pending delete
and submitting the op when attached). -/
theorem invalid_key_only_set_validates {V : Type} :
    (∀ (st : CState V) (v : V),
      setC st none v = .error "Undefined and null keys are not supported") ∧
    (∀ (st : CState V), st.attached = true →
      deleteC st none = ({ st with pend := pdelP st.pend none }, [.delOp none])) := by
  constructor
  · intro st v
    rfl
  · intro st hatt
    simp only [deleteC, hatt, if_true, ite_true]

theorem invalid_key_only_set_validates_witness :
    setC (V := Nat)
        { btree := createT Nat 32, seq := initS JKey Nat 5000, pend := initP JKey Nat,
          flushThreshold := 1000, refSequenceNumberOfLastFlush := -1,
          pendingFlush := .noFlush, attached := true, isLeader := false }
        none 7 = .error "Undefined and null keys are not supported" ∧
    deleteC (V := Nat)
        { btree := createT Nat 32, seq := initS JKey Nat 5000, pend := initP JKey Nat,
          flushThreshold := 1000, refSequenceNumberOfLastFlush := -1,
          pendingFlush := .noFlush, attached := true, isLeader := false }
        none =
      ({ btree := createT Nat 32, seq := initS JKey Nat 5000,
          pend := pdelP (initP JKey Nat) none,
          flushThreshold := 1000, refSequenceNumberOfLastFlush := -1,
          pendingFlush := .noFlush, attached := true, isLeader := false }, [.delOp none]) :=
  ⟨invalid_key_only_set_validates.1 _ 7, invalid_key_only_set_validates.2 _ rfl⟩

/-! ## Split shapes (claim C8) -/

theorem leafIns_absent {V : Type} :
    ∀ (ks : List K) (vs : List V) (k : K) (v : V), k ∉ ks →
      vs.length = ks.length →
      ∃ ks' vs', leafIns ks vs k v = .inserted ks' vs' ∧
        ks'.length = ks.length + 1 ∧ vs'.length = vs.length + 1 := by
  intro ks
  induction ks with
  | nil =>
      intro vs k v _ hlen
      have : vs = [] := List.length_eq_zero.mp hlen
      subst this
      exact ⟨[k], [v], rfl, rfl, rfl⟩
  | cons k0 kt ih =>
      intro vs k v hk hlen
      cases vs with
      | nil => simp at hlen
      | cons v0 vt =>
          have h1 : ¬ k = k0 := fun h => hk (h ▸ List.mem_cons_self k0 kt)
          have h2 : k ∉ kt := fun h => hk (List.mem_cons_of_mem _ h)
          have hlen' : vt.length = kt.length := by simpa using hlen
          by_cases hlt : k < k0
          · refine ⟨k :: k0 :: kt, v :: v0 :: vt, ?_, by simp, by simp⟩
            simp [leafIns, h1, hlt]
          · obtain ⟨ks', vs', heq, hl1, hl2⟩ := ih vt k v h2 hlen'
            refine ⟨k0 :: ks', v0 :: vs', ?_, by simp [hl1], by simp [hl2]⟩
            simp [leafIns, h1, hlt, heq]

/-- C8: when an insertion fills a leaf to exactly `order` entries the leaf
splits into a left half of `ceil(order/2)` entries and a right half of
`floor(order/2)` entries with the separator equal to the first key of the
right half; and when an interior node's spliced key list reaches `order`
keys it splits with left keys `floor(order/2)`, right keys
`ceil(order/2) - 1`, promoted separator the middle key (index
`floor(order/2)`) of the overfull key list, and children split
`ceil((order+1)/2)` / `floor((order+1)/2)`. -/
theorem split_shapes {V : Type} (order : Nat) (hord : 2 ≤ order) :
    (∀ (store : Store V) (ks : List K) (vs : List V) (k : K) (v : V)
        (dh : List Handle),
      k ∉ ks → vs.length = ks.length → ks.length + 1 = order →
      ∃ lk lv sk rk rv,
        setN order 1 store (.leaf ks vs) k v dh
          = some (.split (.leaf lk lv) sk (.leaf rk rv), dh) ∧
        lk.length = (order + 1) / 2 ∧ rk.length = order / 2 ∧
        rk.head? = some sk) ∧
    (∀ (ks : List K) (cs : List (Node V)),
      ks.length = order → cs.length = order + 1 →
      ∃ lk lc sk rk rc,
        interiorFinish order ks cs = .split (.node lk lc) sk (.node rk rc) ∧
        lk.length = order / 2 ∧ rk.length = (order + 1) / 2 - 1 ∧
        ks.get? (order / 2) = some sk ∧
        lc.length = (order + 2) / 2 ∧ rc.length = (order + 1) / 2) := by
  constructor
  · intro store ks vs k v dh hk hvlen hklen
    obtain ⟨ks', vs', hins, hkl, hvl⟩ := leafIns_absent ks vs k v hk hvlen
    have hkl' : ks'.length = order := by omega
    have hvl' : vs'.length = order := by omega
    have hc : (ks'.length + 1) / 2 ≤ ks'.length := by omega
    have hdk : (ks'.drop ((ks'.length + 1) / 2)).length = order / 2 := by
      rw [List.length_drop]
      omega
    have hdv : (vs'.drop ((ks'.length + 1) / 2)).length = order / 2 := by
      rw [List.length_drop]
      omega
    cases hdk2 : ks'.drop ((ks'.length + 1) / 2) with
    | nil =>
        rw [hdk2] at hdk
        simp at hdk
        omega
    | cons sk ktail =>
        cases hdv2 : vs'.drop ((ks'.length + 1) / 2) with
        | nil =>
            rw [hdv2] at hdv
            simp at hdv
            omega
        | cons sv vtail =>
            refine ⟨ks'.take ((ks'.length + 1) / 2), vs'.take ((ks'.length + 1) / 2),
              sk, sk :: ktail, sv :: vtail, ?_, ?_, ?_, rfl⟩
            · show (match leafIns ks vs k v with
                | InsRes.replaced ks2 vs2 =>
                    some (SetRes.one (Node.leaf ks2 vs2), dh)
                | InsRes.inserted ks2 vs2 =>
                    some (leafFinish order ks2 vs2, dh)) = _
              rw [hins]
              dsimp only
              unfold leafFinish
              rw [if_pos (le_of_eq hkl'.symm)]
              have hvk : vs'.drop ((vs'.length + 1) / 2) = sv :: vtail := by
                rw [show (vs'.length + 1) / 2 = (ks'.length + 1) / 2 by omega]
                exact hdv2
              dsimp only
              rw [hdk2, show vs'.drop ((ks'.length + 1) / 2) = sv :: vtail from hdv2]
            · rw [List.length_take]
              omega
            · rw [← hdk2, List.length_drop]
              omega
  · intro ks cs hklen hclen
    have hd : (ks.drop (ks.length / 2)).length = (order + 1) / 2 := by
      rw [List.length_drop]
      omega
    cases hdk : ks.drop (ks.length / 2) with
    | nil =>
        rw [hdk] at hd
        simp at hd
        omega
    | cons sk krest =>
        refine ⟨ks.take (ks.length / 2), cs.take ((cs.length + 1) / 2), sk, krest,
          cs.drop ((cs.length + 1) / 2), ?_, ?_, ?_, ?_, ?_, ?_⟩
        · unfold interiorFinish
          rw [if_pos (le_of_eq hklen.symm), hdk]
        · rw [List.length_take]
          omega
        · rw [hdk] at hd
          simp only [List.length_cons] at hd
          omega
        · have := List.head?_drop ks (ks.length / 2)
          rw [hdk] at this
          simp only [List.head?_cons] at this
          rw [hklen] at this
          rw [List.get?_eq_getElem?]
          exact this.symm
        · rw [List.length_take]
          omega
        · rw [List.length_drop]
          omega

theorem split_shapes_witness :
    ∃ lk lv sk rk rv,
      setN (V := Nat) 4 1 [] (.leaf ["a", "b", "c"] [1, 2, 3]) "d" 4 []
        = some (.split (.leaf lk lv) sk (.leaf rk rv), []) ∧
      lk.length = (4 + 1) / 2 ∧ rk.length = 4 / 2 ∧ rk.head? = some sk :=
  (split_shapes 4 (by decide)).1 [] ["a", "b", "c"] [1, 2, 3] "d" 4 []
    (by decide) (by decide) (by decide)

/-! ## B-tree structural invariants (claim C2) -/

/-- Inclusive lower bound (`none` = unbounded). -/
def okLo : Option K → K → Prop
  | none, _ => True
  | some l, k => l ≤ k

/-- Strict lower bound. -/
def okLoS : Option K → K → Prop
  | none, _ => True
  | some l, k => l < k

/-- Exclusive upper bound (`none` = unbounded). -/
def okHi : K → Option K → Prop
  | _, none => True
  | k, some h => k < h

def okB (lo hi : Option K) (k : K) : Prop := okLo lo k ∧ okHi k hi

/-- Strictly ascending keys. -/
def sortedK (ks : List K) : Prop := ks.Pairwise (· < ·)

/-- Well-formedness of a persisted subtree reachable through the store,
depth-bounded by fuel.  The `inl` form judges one persisted node: node-local
shape (strictly ascending keys within bounds, fewer than `order` keys, leaf
key/value parity) plus the recursive judgement of its children.  The `inr`
form judges a child-handle list against the node's key list: one more child
than keys, each child's key range delimited by the neighbouring keys. -/
def pinvAux {V : Type} (order : Nat) :
    Nat → Store V → PNode V ⊕ List K × List Handle → Option K → Option K → Prop
  | 0, _, _, _, _ => False
  | _ + 1, _, .inl (.pleaf ks vs), lo, hi =>
      sortedK ks ∧ (∀ k ∈ ks, okB lo hi k) ∧ ks.length < order ∧
        vs.length = ks.length
  | d + 1, store, .inl (.pnode ks hs), lo, hi =>
      sortedK ks ∧ (∀ k ∈ ks, okB lo hi k) ∧ ks.length < order ∧
        pinvAux order d store (.inr (ks, hs)) lo hi
  | d + 1, store, .inr (k :: ks, h :: hs'), lo, hi =>
      (∃ pn, Store.find store h = some pn ∧
        pinvAux order d store (.inl pn) lo (some k)) ∧
        pinvAux order d store (.inr (ks, hs')) (some k) hi
  | _ + 1, _, .inr (_ :: _, []), _, _ => False
  | d + 1, store, .inr ([], [h]), lo, hi =>
      ∃ pn, Store.find store h = some pn ∧ pinvAux order d store (.inl pn) lo hi
  | _ + 1, _, .inr ([], _), _, _ => False

def pinv {V : Type} (order : Nat) (d : Nat) (store : Store V) (pn : PNode V)
    (lo hi : Option K) : Prop :=
  pinvAux order d store (.inl pn) lo hi

def pchain {V : Type} (order : Nat) (d : Nat) (store : Store V)
    (hs : List Handle) (ks : List K) (lo hi : Option K) : Prop :=
  pinvAux order d store (.inr (ks, hs)) lo hi

/-- Well-formedness of an in-memory node (`inl`) or of a materialized
child list against its key list (`inr`): materialized nodes satisfy the
node-local shape and range discipline; a lazy wrapper's handle resolves in
the store to a well-formed persisted subtree (and any cached resolution is
itself well-formed). -/
def ninvAux {V : Type} (order : Nat) :
    Nat → Store V → Node V ⊕ List K × List (Node V) → Option K → Option K → Prop
  | 0, _, _, _, _ => False
  | _ + 1, _, .inl (.leaf ks vs), lo, hi =>
      sortedK ks ∧ (∀ k ∈ ks, okB lo hi k) ∧ ks.length < order ∧
        vs.length = ks.length
  | d + 1, store, .inl (.node ks cs), lo, hi =>
      sortedK ks ∧ (∀ k ∈ ks, okB lo hi k) ∧ ks.length < order ∧
        ninvAux order d store (.inr (ks, cs)) lo hi
  | d + 1, store, .inl (.lazy h), lo, hi =>
      ∃ pn, Store.find store h = some pn ∧ pinv order d store pn lo hi
  | d + 1, store, .inl (.lazyCached h n), lo, hi =>
      (∃ pn, Store.find store h = some pn ∧ pinv order d store pn lo hi) ∧
        ninvAux order d store (.inl n) lo hi
  | d + 1, store, .inr (k :: ks, c :: cs'), lo, hi =>
      ninvAux order d store (.inl c) lo (some k) ∧
        ninvAux order d store (.inr (ks, cs')) (some k) hi
  | _ + 1, _, .inr (_ :: _, []), _, _ => False
  | d + 1, store, .inr ([], [c]), lo, hi => ninvAux order d store (.inl c) lo hi
  | _ + 1, _, .inr ([], _), _, _ => False

def ninv {V : Type} (order : Nat) (d : Nat) (store : Store V) (n : Node V)
    (lo hi : Option K) : Prop :=
  ninvAux order d store (.inl n) lo hi

def nchain {V : Type} (order : Nat) (d : Nat) (store : Store V)
    (cs : List (Node V)) (ks : List K) (lo hi : Option K) : Prop :=
  ninvAux order d store (.inr (ks, cs)) lo hi

/-- The node-local shape asserted by the claim, as an executable check:
every interior node has exactly `children.length - 1` keys, keys within
every materialized node are strictly ascending, and no node holds `order`
or more keys. -/
def ascB : List K → Bool
  | [] => true
  | [_] => true
  | a :: b :: t => decide (a < b) && ascB (b :: t)

mutual
def localOkB {V : Type} (order : Nat) : Node V → Bool
  | .leaf ks _ => ascB ks && decide (ks.length < order)
  | .node ks cs =>
      decide (ks.length + 1 = cs.length) && ascB ks &&
        decide (ks.length < order) && localOkL order cs
  | .lazy _ => true
  | .lazyCached _ n => localOkB order n

def localOkL {V : Type} (order : Nat) : List (Node V) → Bool
  | [] => true
  | c :: ct => localOkB order c && localOkL order ct
end

/-! Clause-level unfolding equations for the invariant predicates. -/

theorem pinv_zero {V : Type} (order : Nat) (store : Store V) (pn : PNode V)
    (lo hi : Option K) : pinv order 0 store pn lo hi = False := rfl

theorem pinv_leaf {V : Type} (order d : Nat) (store : Store V) (ks : List K)
    (vs : List V) (lo hi : Option K) :
    pinv order (d + 1) store (.pleaf ks vs) lo hi =
      (sortedK ks ∧ (∀ k ∈ ks, okB lo hi k) ∧ ks.length < order ∧
        vs.length = ks.length) := rfl

theorem pinv_node {V : Type} (order d : Nat) (store : Store V) (ks : List K)
    (hs : List Handle) (lo hi : Option K) :
    pinv order (d + 1) store (.pnode ks hs) lo hi =
      (sortedK ks ∧ (∀ k ∈ ks, okB lo hi k) ∧ ks.length < order ∧
        pchain order d store hs ks lo hi) := rfl

theorem pchain_zero {V : Type} (order : Nat) (store : Store V) (hs : List Handle)
    (ks : List K) (lo hi : Option K) : pchain order 0 store hs ks lo hi = False := rfl

theorem pchain_nil_nil {V : Type} (order d : Nat) (store : Store V)
    (lo hi : Option K) : pchain order (d + 1) store [] [] lo hi = False := rfl

theorem pchain_nil_cons {V : Type} (order d : Nat) (store : Store V) (k0 : K)
    (ks : List K) (lo hi : Option K) :
    pchain order (d + 1) store [] (k0 :: ks) lo hi = False := rfl

theorem pchain_single {V : Type} (order d : Nat) (store : Store V) (h0 : Handle)
    (lo hi : Option K) :
    pchain order (d + 1) store [h0] [] lo hi =
      ∃ pn, Store.find store h0 = some pn ∧ pinv order d store pn lo hi := rfl

theorem pchain_two_nil {V : Type} (order d : Nat) (store : Store V)
    (h0 h1 : Handle) (hs : List Handle) (lo hi : Option K) :
    pchain order (d + 1) store (h0 :: h1 :: hs) [] lo hi = False := rfl

theorem pchain_cons {V : Type} (order d : Nat) (store : Store V) (h0 : Handle)
    (hs : List Handle) (k0 : K) (ks : List K) (lo hi : Option K) :
    pchain order (d + 1) store (h0 :: hs) (k0 :: ks) lo hi =
      ((∃ pn, Store.find store h0 = some pn ∧ pinv order d store pn lo (some k0)) ∧
        pchain order d store hs ks (some k0) hi) := rfl

theorem ninv_zero {V : Type} (order : Nat) (store : Store V) (n : Node V)
    (lo hi : Option K) : ninv order 0 store n lo hi = False := rfl

theorem ninv_leaf {V : Type} (order d : Nat) (store : Store V) (ks : List K)
    (vs : List V) (lo hi : Option K) :
    ninv order (d + 1) store (.leaf ks vs) lo hi =
      (sortedK ks ∧ (∀ k ∈ ks, okB lo hi k) ∧ ks.length < order ∧
        vs.length = ks.length) := rfl

theorem ninv_node {V : Type} (order d : Nat) (store : Store V) (ks : List K)
    (cs : List (Node V)) (lo hi : Option K) :
    ninv order (d + 1) store (.node ks cs) lo hi =
      (sortedK ks ∧ (∀ k ∈ ks, okB lo hi k) ∧ ks.length < order ∧
        nchain order d store cs ks lo hi) := rfl

theorem ninv_lazy {V : Type} (order d : Nat) (store : Store V) (h0 : Handle)
    (lo hi : Option K) :
    ninv order (d + 1) store (.lazy h0) lo hi =
      ∃ pn, Store.find store h0 = some pn ∧ pinv order d store pn lo hi := rfl

theorem ninv_lazyCached {V : Type} (order d : Nat) (store : Store V)
    (h0 : Handle) (n : Node V) (lo hi : Option K) :
    ninv order (d + 1) store (.lazyCached h0 n) lo hi =
      ((∃ pn, Store.find store h0 = some pn ∧ pinv order d store pn lo hi) ∧
        ninv order d store n lo hi) := rfl

theorem nchain_zero {V : Type} (order : Nat) (store : Store V)
    (cs : List (Node V)) (ks : List K) (lo hi : Option K) :
    nchain order 0 store cs ks lo hi = False := rfl

theorem nchain_nil_nil {V : Type} (order d : Nat) (store : Store V)
    (lo hi : Option K) : nchain order (d + 1) store [] [] lo hi = False := rfl

theorem nchain_nil_cons {V : Type} (order d : Nat) (store : Store V) (k0 : K)
    (ks : List K) (lo hi : Option K) :
    nchain order (d + 1) store [] (k0 :: ks) lo hi = False := rfl

theorem nchain_single {V : Type} (order d : Nat) (store : Store V) (c : Node V)
    (lo hi : Option K) :
    nchain order (d + 1) store [c] [] lo hi = ninv order d store c lo hi := rfl

theorem nchain_two_nil {V : Type} (order d : Nat) (store : Store V)
    (c0 c1 : Node V) (cs : List (Node V)) (lo hi : Option K) :
    nchain order (d + 1) store (c0 :: c1 :: cs) [] lo hi = False := rfl

theorem nchain_cons {V : Type} (order d : Nat) (store : Store V) (c : Node V)
    (cs : List (Node V)) (k0 : K) (ks : List K) (lo hi : Option K) :
    nchain order (d + 1) store (c :: cs) (k0 :: ks) lo hi =
      (ninv order d store c lo (some k0) ∧
        nchain order d store cs ks (some k0) hi) := rfl

theorem pinv_mono_succ {V : Type} (order : Nat) :
    ∀ d : Nat,
      (∀ (store : Store V) pn lo hi, pinv order d store pn lo hi →
        pinv order (d + 1) store pn lo hi) ∧
      (∀ (store : Store V) hs ks lo hi, pchain order d store hs ks lo hi →
        pchain order (d + 1) store hs ks lo hi) := by
  intro d
  induction d with
  | zero =>
      constructor
      · intro store pn lo hi h; rw [pinv_zero] at h; exact h.elim
      · intro store hs ks lo hi h; rw [pchain_zero] at h; exact h.elim
  | succ d ih =>
      constructor
      · intro store pn lo hi h
        match pn with
        | .pleaf ks vs =>
            rw [pinv_leaf] at h
            rw [pinv_leaf]
            exact h
        | .pnode ks hs =>
            rw [pinv_node] at h
            rw [pinv_node]
            obtain ⟨h1, h2, h3, h4⟩ := h
            exact ⟨h1, h2, h3, ih.2 store hs ks lo hi h4⟩
      · intro store hs ks lo hi h
        match hs, ks with
        | [], [] => rw [pchain_nil_nil] at h; exact h.elim
        | [], k0 :: ks' => rw [pchain_nil_cons] at h; exact h.elim
        | [h0], [] =>
            rw [pchain_single] at h
            rw [pchain_single]
            obtain ⟨pn, hf, hp⟩ := h
            exact ⟨pn, hf, ih.1 store pn lo hi hp⟩
        | h0 :: h1 :: hs', [] => rw [pchain_two_nil] at h; exact h.elim
        | h0 :: hs', k0 :: ks' =>
            rw [pchain_cons] at h
            rw [pchain_cons]
            obtain ⟨⟨pn, hf, hp⟩, hc⟩ := h
            exact ⟨⟨pn, hf, ih.1 store pn lo (some k0) hp⟩,
              ih.2 store hs' ks' (some k0) hi hc⟩

theorem pinv_mono {V : Type} (order : Nat) {d d' : Nat} (hdd : d ≤ d')
    (store : Store V) (pn : PNode V) (lo hi : Option K)
    (h : pinv order d store pn lo hi) : pinv order d' store pn lo hi := by
  induction hdd with
  | refl => exact h
  | step _ ih => exact (pinv_mono_succ order _).1 store pn lo hi ih

theorem pchain_mono {V : Type} (order : Nat) {d d' : Nat} (hdd : d ≤ d')
    (store : Store V) (hs : List Handle) (ks : List K) (lo hi : Option K)
    (h : pchain order d store hs ks lo hi) : pchain order d' store hs ks lo hi := by
  induction hdd with
  | refl => exact h
  | step _ ih => exact (pinv_mono_succ order _).2 store hs ks lo hi ih

theorem ninv_mono_succ {V : Type} (order : Nat) :
    ∀ d : Nat,
      (∀ (store : Store V) n lo hi, ninv order d store n lo hi →
        ninv order (d + 1) store n lo hi) ∧
      (∀ (store : Store V) cs ks lo hi, nchain order d store cs ks lo hi →
        nchain order (d + 1) store cs ks lo hi) := by
  intro d
  induction d with
  | zero =>
      constructor
      · intro store n lo hi h; rw [ninv_zero] at h; exact h.elim
      · intro store cs ks lo hi h; rw [nchain_zero] at h; exact h.elim
  | succ d ih =>
      constructor
      · intro store n lo hi h
        match n with
        | .leaf ks vs =>
            rw [ninv_leaf] at h; rw [ninv_leaf]; exact h
        | .node ks cs =>
            rw [ninv_node] at h; rw [ninv_node]
            obtain ⟨h1, h2, h3, h4⟩ := h
            exact ⟨h1, h2, h3, ih.2 store cs ks lo hi h4⟩
        | .lazy h0 =>
            rw [ninv_lazy] at h; rw [ninv_lazy]
            obtain ⟨pn, hf, hp⟩ := h
            exact ⟨pn, hf, pinv_mono order (Nat.le_succ d) store pn lo hi hp⟩
        | .lazyCached h0 n =>
            rw [ninv_lazyCached] at h; rw [ninv_lazyCached]
            obtain ⟨⟨pn, hf, hp⟩, hn⟩ := h
            exact ⟨⟨pn, hf, pinv_mono order (Nat.le_succ d) store pn lo hi hp⟩,
              ih.1 store n lo hi hn⟩
      · intro store cs ks lo hi h
        match cs, ks with
        | [], [] => rw [nchain_nil_nil] at h; exact h.elim
        | [], k0 :: ks' => rw [nchain_nil_cons] at h; exact h.elim
        | [c], [] =>
            rw [nchain_single] at h; rw [nchain_single]
            exact ih.1 store c lo hi h
        | c0 :: c1 :: cs', [] => rw [nchain_two_nil] at h; exact h.elim
        | c :: cs', k0 :: ks' =>
            rw [nchain_cons] at h; rw [nchain_cons]
            obtain ⟨hc, hcs⟩ := h
            exact ⟨ih.1 store c lo (some k0) hc, ih.2 store cs' ks' (some k0) hi hcs⟩

theorem ninv_mono {V : Type} (order : Nat) {d d' : Nat} (hdd : d ≤ d')
    (store : Store V) (n : Node V) (lo hi : Option K)
    (h : ninv order d store n lo hi) : ninv order d' store n lo hi := by
  induction hdd with
  | refl => exact h
  | step _ ih => exact (ninv_mono_succ order _).1 store n lo hi ih

theorem nchain_mono {V : Type} (order : Nat) {d d' : Nat} (hdd : d ≤ d')
    (store : Store V) (cs : List (Node V)) (ks : List K) (lo hi : Option K)
    (h : nchain order d store cs ks lo hi) : nchain order d' store cs ks lo hi := by
  induction hdd with
  | refl => exact h
  | step _ ih => exact (ninv_mono_succ order _).2 store cs ks lo hi ih

/-- Store extension: every resolvable handle still resolves to the same
blob. -/
def storeLe {V : Type} (s s' : Store V) : Prop :=
  ∀ h pn, Store.find s h = some pn → Store.find s' h = some pn

theorem storeLe_refl {V : Type} (s : Store V) : storeLe s s := fun _ _ h => h

theorem storeLe_trans {V : Type} {s1 s2 s3 : Store V}
    (h12 : storeLe s1 s2) (h23 : storeLe s2 s3) : storeLe s1 s3 :=
  fun h pn hf => h23 h pn (h12 h pn hf)

theorem find_append_left {V : Type} (s l : Store V) (h : Handle) (pn : PNode V)
    (hf : Store.find s h = some pn) : Store.find (s ++ l) h = some pn := by
  induction s with
  | nil => simp [Store.find] at hf
  | cons p t ih =>
      obtain ⟨h0, pn0⟩ := p
      by_cases he : h0 = h
      · simp only [Store.find, if_pos he] at hf
        simp [Store.find, he, hf]
      · simp only [Store.find, if_neg he] at hf
        simpa [Store.find, he] using ih hf

theorem storeLe_append {V : Type} (s l : Store V) : storeLe s (s ++ l) :=
  fun h pn hf => find_append_left s l h pn hf

theorem find_append_fresh {V : Type} (s : Store V) (h : Handle) (pn : PNode V)
    (hfresh : ∀ p ∈ s, p.1 ≠ h) :
    Store.find (s ++ [(h, pn)]) h = some pn := by
  induction s with
  | nil => simp [Store.find]
  | cons p t ih =>
      obtain ⟨h0, pn0⟩ := p
      have hne : h0 ≠ h := hfresh (h0, pn0) (List.mem_cons_self _ _)
      simp only [List.cons_append, Store.find, if_neg hne]
      exact ih fun q hq => hfresh q (List.mem_cons_of_mem _ hq)

theorem pinv_store_mono {V : Type} (order : Nat) :
    ∀ d : Nat,
      (∀ (s s' : Store V) pn lo hi, storeLe s s' → pinv order d s pn lo hi →
        pinv order d s' pn lo hi) ∧
      (∀ (s s' : Store V) hs ks lo hi, storeLe s s' → pchain order d s hs ks lo hi →
        pchain order d s' hs ks lo hi) := by
  intro d
  induction d with
  | zero =>
      constructor
      · intro s s' pn lo hi _ h; rw [pinv_zero] at h; exact h.elim
      · intro s s' hs ks lo hi _ h; rw [pchain_zero] at h; exact h.elim
  | succ d ih =>
      constructor
      · intro s s' pn lo hi hle h
        match pn with
        | .pleaf ks vs => rw [pinv_leaf] at h; rw [pinv_leaf]; exact h
        | .pnode ks hs =>
            rw [pinv_node] at h; rw [pinv_node]
            obtain ⟨h1, h2, h3, h4⟩ := h
            exact ⟨h1, h2, h3, ih.2 s s' hs ks lo hi hle h4⟩
      · intro s s' hs ks lo hi hle h
        match hs, ks with
        | [], [] => rw [pchain_nil_nil] at h; exact h.elim
        | [], k0 :: ks' => rw [pchain_nil_cons] at h; exact h.elim
        | [h0], [] =>
            rw [pchain_single] at h; rw [pchain_single]
            obtain ⟨pn, hf, hp⟩ := h
            exact ⟨pn, hle h0 pn hf, ih.1 s s' pn lo hi hle hp⟩
        | h0 :: h1 :: hs', [] => rw [pchain_two_nil] at h; exact h.elim
        | h0 :: hs', k0 :: ks' =>
            rw [pchain_cons] at h; rw [pchain_cons]
            obtain ⟨⟨pn, hf, hp⟩, hc⟩ := h
            exact ⟨⟨pn, hle h0 pn hf, ih.1 s s' pn lo (some k0) hle hp⟩,
              ih.2 s s' hs' ks' (some k0) hi hle hc⟩

theorem ninv_store_mono {V : Type} (order : Nat) :
    ∀ d : Nat,
      (∀ (s s' : Store V) n lo hi, storeLe s s' → ninv order d s n lo hi →
        ninv order d s' n lo hi) ∧
      (∀ (s s' : Store V) cs ks lo hi, storeLe s s' → nchain order d s cs ks lo hi →
        nchain order d s' cs ks lo hi) := by
  intro d
  induction d with
  | zero =>
      constructor
      · intro s s' n lo hi _ h; rw [ninv_zero] at h; exact h.elim
      · intro s s' cs ks lo hi _ h; rw [nchain_zero] at h; exact h.elim
  | succ d ih =>
      constructor
      · intro s s' n lo hi hle h
        match n with
        | .leaf ks vs => rw [ninv_leaf] at h; rw [ninv_leaf]; exact h
        | .node ks cs =>
            rw [ninv_node] at h; rw [ninv_node]
            obtain ⟨h1, h2, h3, h4⟩ := h
            exact ⟨h1, h2, h3, ih.2 s s' cs ks lo hi hle h4⟩
        | .lazy h0 =>
            rw [ninv_lazy] at h; rw [ninv_lazy]
            obtain ⟨pn, hf, hp⟩ := h
            exact ⟨pn, hle h0 pn hf, (pinv_store_mono order d).1 s s' pn lo hi hle hp⟩
        | .lazyCached h0 n =>
            rw [ninv_lazyCached] at h; rw [ninv_lazyCached]
            obtain ⟨⟨pn, hf, hp⟩, hn⟩ := h
            exact ⟨⟨pn, hle h0 pn hf,
              (pinv_store_mono order d).1 s s' pn lo hi hle hp⟩,
              ih.1 s s' n lo hi hle hn⟩
      · intro s s' cs ks lo hi hle h
        match cs, ks with
        | [], [] => rw [nchain_nil_nil] at h; exact h.elim
        | [], k0 :: ks' => rw [nchain_nil_cons] at h; exact h.elim
        | [c], [] =>
            rw [nchain_single] at h; rw [nchain_single]
            exact ih.1 s s' c lo hi hle h
        | c0 :: c1 :: cs', [] => rw [nchain_two_nil] at h; exact h.elim
        | c :: cs', k0 :: ks' =>
            rw [nchain_cons] at h; rw [nchain_cons]
            obtain ⟨hc, hcs⟩ := h
            exact ⟨ih.1 s s' c lo (some k0) hle hc,
              ih.2 s s' cs' ks' (some k0) hi hle hcs⟩

theorem nchain_length {V : Type} (order : Nat) :
    ∀ (d : Nat) (store : Store V) cs ks lo hi,
      nchain order d store cs ks lo hi → cs.length = ks.length + 1 := by
  intro d
  induction d with
  | zero => intro store cs ks lo hi h; rw [nchain_zero] at h; exact h.elim
  | succ d ih =>
      intro store cs ks lo hi h
      match cs, ks with
      | [], [] => rw [nchain_nil_nil] at h; exact h.elim
      | [], k0 :: ks' => rw [nchain_nil_cons] at h; exact h.elim
      | [c], [] => rfl
      | c0 :: c1 :: cs', [] => rw [nchain_two_nil] at h; exact h.elim
      | c :: cs', k0 :: ks' =>
          rw [nchain_cons] at h
          obtain ⟨_, hcs⟩ := h
          simp [ih store cs' ks' (some k0) hi hcs]

theorem pairwise_ascB : ∀ (ks : List K), sortedK ks → ascB ks = true := by
  intro ks
  induction ks with
  | nil => intro _; rfl
  | cons a t ih =>
      intro h
      rcases List.pairwise_cons.mp h with ⟨hall, htail⟩
      cases t with
      | nil => rfl
      | cons b t' =>
          have hab : a < b := hall b (List.mem_cons_self b t')
          simp only [ascB, Bool.and_eq_true, decide_eq_true_eq]
          exact ⟨hab, ih htail⟩

theorem ninv_localOk {V : Type} (order : Nat) :
    ∀ d : Nat,
      (∀ (store : Store V) n lo hi, ninv order d store n lo hi →
        localOkB order n = true) ∧
      (∀ (store : Store V) cs ks lo hi, nchain order d store cs ks lo hi →
        localOkL order cs = true) := by
  intro d
  induction d with
  | zero =>
      constructor
      · intro store n lo hi h; rw [ninv_zero] at h; exact h.elim
      · intro store cs ks lo hi h; rw [nchain_zero] at h; exact h.elim
  | succ d ih =>
      constructor
      · intro store n lo hi h
        match n with
        | .leaf ks vs =>
            rw [ninv_leaf] at h
            obtain ⟨h1, _, h3, _⟩ := h
            simp only [localOkB, Bool.and_eq_true, decide_eq_true_eq]
            exact ⟨pairwise_ascB ks h1, h3⟩
        | .node ks cs =>
            rw [ninv_node] at h
            obtain ⟨h1, _, h3, h4⟩ := h
            simp only [localOkB, Bool.and_eq_true, decide_eq_true_eq]
            exact ⟨⟨⟨(nchain_length order d store cs ks lo hi h4).symm,
              pairwise_ascB ks h1⟩, h3⟩, ih.2 store cs ks lo hi h4⟩
        | .lazy h0 => rfl
        | .lazyCached h0 n =>
            rw [ninv_lazyCached] at h
            obtain ⟨_, hn⟩ := h
            exact ih.1 store n lo hi hn
      · intro store cs ks lo hi h
        match cs, ks with
        | [], [] => rw [nchain_nil_nil] at h; exact h.elim
        | [], k0 :: ks' => rw [nchain_nil_cons] at h; exact h.elim
        | [c], [] =>
            rw [nchain_single] at h
            simp only [localOkL, Bool.and_eq_true]
            exact ⟨ih.1 store c lo hi h, trivial⟩
        | c0 :: c1 :: cs', [] => rw [nchain_two_nil] at h; exact h.elim
        | c :: cs', k0 :: ks' =>
            rw [nchain_cons] at h
            obtain ⟨hc, hcs⟩ := h
            simp only [localOkL, Bool.and_eq_true]
            exact ⟨ih.1 store c lo (some k0) hc, ih.2 store cs' ks' (some k0) hi hcs⟩

theorem pchain_to_nchain {V : Type} (order : Nat) :
    ∀ (f : Nat) (store : Store V) hs ks lo hi,
      pchain order f store hs ks lo hi →
      nchain order (f + 1) store (hs.map Node.lazy) ks lo hi := by
  intro f
  induction f with
  | zero => intro store hs ks lo hi h; rw [pchain_zero] at h; exact h.elim
  | succ f ih =>
      intro store hs ks lo hi h
      match hs, ks with
      | [], [] => rw [pchain_nil_nil] at h; exact h.elim
      | [], k0 :: ks' => rw [pchain_nil_cons] at h; exact h.elim
      | [h0], [] =>
          rw [pchain_single] at h
          obtain ⟨pn, hf, hp⟩ := h
          show nchain order (f + 1 + 1) store [Node.lazy h0] [] lo hi
          rw [nchain_single, ninv_lazy]
          exact ⟨pn, hf, hp⟩
      | h0 :: h1 :: hs', [] => rw [pchain_two_nil] at h; exact h.elim
      | h0 :: hs', k0 :: ks' =>
          rw [pchain_cons] at h
          obtain ⟨⟨pn, hf, hp⟩, hc⟩ := h
          show nchain order (f + 1 + 1) store
            (Node.lazy h0 :: hs'.map Node.lazy) (k0 :: ks') lo hi
          rw [nchain_cons, ninv_lazy]
          exact ⟨⟨pn, hf, hp⟩, ih store hs' ks' (some k0) hi hc⟩

theorem pinv_build {V : Type} (order : Nat) (d : Nat) (store : Store V)
    (pn : PNode V) (lo hi : Option K) (h : pinv order d store pn lo hi) :
    ninv order (d + 1) store (buildNode pn) lo hi := by
  match d, pn with
  | 0, _ => rw [pinv_zero] at h; exact h.elim
  | d + 1, .pleaf ks vs =>
      rw [pinv_leaf] at h
      show ninv order (d + 1 + 1) store (.leaf ks vs) lo hi
      rw [ninv_leaf]
      exact h
  | d + 1, .pnode ks hs =>
      rw [pinv_node] at h
      obtain ⟨h1, h2, h3, h4⟩ := h
      show ninv order (d + 1 + 1) store (.node ks (hs.map Node.lazy)) lo hi
      rw [ninv_node]
      exact ⟨h1, h2, h3, pchain_to_nchain order d store hs ks lo hi h4⟩

theorem okLoS_okLo {lo : Option K} {k : K} (h : okLoS lo k) : okLo lo k := by
  cases lo with
  | none => trivial
  | some l => exact le_of_lt h

theorem okLoS_of_okLo_lt {lo : Option K} {a b : K} (h1 : okLo lo a)
    (h2 : a < b) : okLoS lo b := by
  cases lo with
  | none => trivial
  | some l => exact lt_of_le_of_lt h1 h2

theorem okLo_of_okLo_le {lo : Option K} {a b : K} (h1 : okLo lo a)
    (h2 : a ≤ b) : okLo lo b := by
  cases lo with
  | none => trivial
  | some l => exact le_trans h1 h2

theorem okHi_of_lt_okHi {a b : K} {hi : Option K} (h1 : a < b)
    (h2 : okHi b hi) : okHi a hi := by
  cases hi with
  | none => trivial
  | some h => exact lt_trans h1 h2

theorem leafIns_replaced_eq {V : Type} :
    ∀ (ks : List K) (vs : List V) (k : K) (v : V) ks' vs',
      leafIns ks vs k v = .replaced ks' vs' →
      ks' = ks ∧ vs'.length = vs.length := by
  intro ks
  induction ks with
  | nil => intro vs k v ks' vs' h; simp [leafIns] at h
  | cons k0 kt ih =>
      intro vs k v ks' vs' h
      cases vs with
      | nil => simp [leafIns] at h
      | cons v0 vt =>
          by_cases he : k = k0
          · rw [leafIns, if_pos he] at h
            cases h
            exact ⟨rfl, by simp⟩
          · by_cases hlt : k < k0
            · rw [leafIns, if_neg he, if_pos hlt] at h
              cases h
            · rw [leafIns, if_neg he, if_neg hlt] at h
              cases hli : leafIns kt vt k v with
              | replaced ks2 vs2 =>
                  rw [hli] at h
                  cases h
                  obtain ⟨h1, h2⟩ := ih vt k v ks2 vs2 hli
                  subst h1
                  exact ⟨rfl, by simp [h2]⟩
              | inserted ks2 vs2 => rw [hli] at h; cases h

theorem leafIns_inserted_props {V : Type} (lo hi : Option K) (k : K) (v : V)
    (hk : okB lo hi k) :
    ∀ (ks : List K) (vs : List V) ks' vs',
      sortedK ks → (∀ x ∈ ks, okB lo hi x) → vs.length = ks.length →
      leafIns ks vs k v = .inserted ks' vs' →
      sortedK ks' ∧ (∀ x ∈ ks', okB lo hi x) ∧
        (∀ x ∈ ks', x ∈ ks ∨ x = k) ∧
        ks'.length = ks.length + 1 ∧ vs'.length = vs.length + 1 := by
  intro ks
  induction ks with
  | nil =>
      intro vs ks' vs' _ _ hpar h
      have hvs : vs = [] := List.length_eq_zero.mp hpar
      subst hvs
      cases h
      refine ⟨List.pairwise_singleton _ _, ?_, ?_, rfl, rfl⟩
      · intro x hx
        rw [List.mem_singleton] at hx
        subst hx
        exact hk
      · intro x hx
        rw [List.mem_singleton] at hx
        exact Or.inr hx
  | cons k0 kt ih =>
      intro vs ks' vs' hsort hb hpar h
      cases vs with
      | nil => simp at hpar
      | cons v0 vt =>
          have hpar' : vt.length = kt.length := by simpa using hpar
          rcases List.pairwise_cons.mp hsort with ⟨hall, htail⟩
          by_cases he : k = k0
          · rw [leafIns, if_pos he] at h
            cases h
          · by_cases hlt : k < k0
            · rw [leafIns, if_neg he, if_pos hlt] at h
              cases h
              refine ⟨?_, ?_, ?_, by simp, by simp⟩
              · refine List.pairwise_cons.mpr ⟨?_, hsort⟩
                intro y hy
                rcases List.mem_cons.mp hy with hy | hy
                · exact hy ▸ hlt
                · exact lt_trans hlt (hall y hy)
              · intro x hx
                rcases List.mem_cons.mp hx with hx | hx
                · exact hx ▸ hk
                · exact hb x hx
              · intro x hx
                rcases List.mem_cons.mp hx with hx | hx
                · exact Or.inr hx
                · exact Or.inl hx
            · rw [leafIns, if_neg he, if_neg hlt] at h
              cases hli : leafIns kt vt k v with
              | replaced ks2 vs2 => rw [hli] at h; cases h
              | inserted ks2 vs2 =>
                  rw [hli] at h
                  cases h
                  obtain ⟨hs2, hb2, hm2, hl2, hl3⟩ :=
                    ih vt ks2 vs2 htail (fun x hx => hb x (List.mem_cons_of_mem _ hx))
                      hpar' hli
                  have hk0k : k0 < k := lt_of_le_of_ne (not_lt.mp hlt)
                    (fun h => he h.symm)
                  refine ⟨?_, ?_, ?_, by simp [hl2], by simp [hl3]⟩
                  · refine List.pairwise_cons.mpr ⟨?_, hs2⟩
                    intro y hy
                    rcases hm2 y hy with hy2 | hy2
                    · exact hall y hy2
                    · exact hy2 ▸ hk0k
                  · intro x hx
                    rcases List.mem_cons.mp hx with hx | hx
                    · exact hx ▸ hb k0 (List.mem_cons_self k0 kt)
                    · exact hb2 x hx
                  · intro x hx
                    rcases List.mem_cons.mp hx with hx | hx
                    · exact Or.inl (hx ▸ List.mem_cons_self k0 kt)
                    · rcases hm2 x hx with hx2 | hx2
                      · exact Or.inl (List.mem_cons_of_mem _ hx2)
                      · exact Or.inr hx2

theorem leafDel_some_props {V : Type} :
    ∀ (ks : List K) (vs : List V) (k : K) ks' vs',
      leafDel ks vs k = some (ks', vs') →
      ks'.Sublist ks ∧ ks'.length + 1 = ks.length ∧ vs'.length + 1 = vs.length := by
  intro ks
  induction ks with
  | nil => intro vs k ks' vs' h; cases vs <;> simp [leafDel] at h
  | cons k0 kt ih =>
      intro vs k ks' vs' h
      cases vs with
      | nil => simp [leafDel] at h
      | cons v0 vt =>
          by_cases he : k0 = k
          · rw [leafDel, if_pos he] at h
            cases h
            exact ⟨List.sublist_cons_self _ _, rfl, rfl⟩
          · rw [leafDel, if_neg he] at h
            cases hld : leafDel kt vt k with
            | none => rw [hld] at h; cases h
            | some r =>
                obtain ⟨ks2, vs2⟩ := r
                rw [hld] at h
                cases h
                obtain ⟨h1, h2, h3⟩ := ih vt k ks2 vs2 hld
                exact ⟨List.Sublist.cons₂ _ h1, by simp [h2], by simp [h3]⟩

theorem nchain_split {V : Type} (order : Nat) :
    ∀ (ks1 : List K) (d : Nat) (store : Store V) (sk : K) (ks2 : List K)
      (cs : List (Node V)) (lo hi : Option K),
      nchain order d store cs (ks1 ++ sk :: ks2) lo hi →
      nchain order d store (cs.take (ks1.length + 1)) ks1 lo (some sk) ∧
      nchain order d store (cs.drop (ks1.length + 1)) ks2 (some sk) hi := by
  intro ks1
  induction ks1 with
  | nil =>
      intro d store sk ks2 cs lo hi h
      cases d with
      | zero => rw [nchain_zero] at h; exact h.elim
      | succ e =>
          cases cs with
          | nil => rw [List.nil_append, nchain_nil_cons] at h; exact h.elim
          | cons c cs' =>
              rw [List.nil_append, nchain_cons] at h
              obtain ⟨hc, hcs⟩ := h
              constructor
              · show nchain order (e + 1) store [c] [] lo (some sk)
                rw [nchain_single]
                exact hc
              · show nchain order (e + 1) store cs' ks2 (some sk) hi
                exact nchain_mono order (Nat.le_succ e) store cs' ks2 _ _ hcs
  | cons k1 kt ih =>
      intro d store sk ks2 cs lo hi h
      cases d with
      | zero => rw [nchain_zero] at h; exact h.elim
      | succ e =>
          cases cs with
          | nil => rw [List.cons_append, nchain_nil_cons] at h; exact h.elim
          | cons c cs' =>
              rw [List.cons_append, nchain_cons] at h
              obtain ⟨hc, hcs⟩ := h
              obtain ⟨ih1, ih2⟩ := ih e store sk ks2 cs' (some k1) hi hcs
              constructor
              · show nchain order (e + 1) store (c :: cs'.take (kt.length + 1))
                  (k1 :: kt) lo (some sk)
                rw [nchain_cons]
                exact ⟨hc, ih1⟩
              · show nchain order (e + 1) store (cs'.drop (kt.length + 1))
                  ks2 (some sk) hi
                exact nchain_mono order (Nat.le_succ e) store _ ks2 _ _ ih2

/-- Well-formedness of a `set` result against the caller's bounds: a split's
separator is strictly above the lower bound (it is promoted from a position
past the first key of an already-in-bounds node), which is what keeps the
parent's spliced key list strictly ascending. -/
def resOk {V : Type} (order d : Nat) (store : Store V) (lo hi : Option K) :
    SetRes V → Prop
  | .one n => ninv order d store n lo hi
  | .split a sk b =>
      ninv order d store a lo (some sk) ∧ okLoS lo sk ∧ okHi sk hi ∧
        ninv order d store b (some sk) hi

theorem resOk_mono {V : Type} {order d d' : Nat} (hdd : d ≤ d') (store : Store V)
    (lo hi : Option K) (r : SetRes V) (h : resOk order d store lo hi r) :
    resOk order d' store lo hi r := by
  cases r with
  | one n => exact ninv_mono order hdd store n lo hi h
  | split a sk b =>
      exact ⟨ninv_mono order hdd store a _ _ h.1, h.2.1, h.2.2.1,
        ninv_mono order hdd store b _ _ h.2.2.2⟩

theorem sortedK_sublist {ks ks' : List K} (hsub : ks'.Sublist ks)
    (h : sortedK ks) : sortedK ks' := List.Pairwise.sublist hsub h

theorem sortedK_take_drop_lt (ks : List K) (n : Nat) (h : sortedK ks) :
    ∀ x ∈ ks.take n, ∀ y ∈ ks.drop n, x < y := by
  have h2 : sortedK (ks.take n ++ ks.drop n) := by
    rw [List.take_append_drop]; exact h
  exact (List.pairwise_append.mp h2).2.2

theorem take_head_of_le {α : Type} (l : List α) (n : Nat) (h1 : 1 ≤ n)
    (h2 : 1 ≤ l.length) : ∃ t0 tt, l.take n = t0 :: tt := by
  cases ht : l.take n with
  | nil =>
      exfalso
      have := congrArg List.length ht
      simp only [List.length_take, List.length_nil] at this
      omega
  | cons a b => exact ⟨a, b, rfl⟩

theorem leafFinish_ok {V : Type} (order : Nat) (hord : 2 ≤ order) (d : Nat)
    (store : Store V) (ks : List K) (vs : List V) (lo hi : Option K)
    (hsort : sortedK ks) (hb : ∀ x ∈ ks, okB lo hi x) (hlen : ks.length ≤ order)
    (hpar : vs.length = ks.length) :
    resOk order (d + 1) store lo hi (leafFinish order ks vs) := by
  by_cases hle : order ≤ ks.length
  · have hklen : ks.length = order := le_antisymm hlen hle
    obtain ⟨k2, kt2, hdk⟩ : ∃ k2 kt2, ks.drop ((ks.length + 1) / 2) = k2 :: kt2 := by
      cases hd : ks.drop ((ks.length + 1) / 2) with
      | nil =>
          exfalso
          have := congrArg List.length hd
          simp only [List.length_drop, List.length_nil] at this
          omega
      | cons a b => exact ⟨a, b, rfl⟩
    obtain ⟨v2, vt2, hdv⟩ : ∃ v2 vt2, vs.drop ((ks.length + 1) / 2) = v2 :: vt2 := by
      cases hd : vs.drop ((ks.length + 1) / 2) with
      | nil =>
          exfalso
          have := congrArg List.length hd
          simp only [List.length_drop, List.length_nil] at this
          omega
      | cons a b => exact ⟨a, b, rfl⟩
    have heq : leafFinish (V := V) order ks vs =
        .split (.leaf (ks.take ((ks.length + 1) / 2)) (vs.take ((ks.length + 1) / 2)))
          k2 (.leaf (k2 :: kt2) (v2 :: vt2)) := by
      unfold leafFinish
      rw [if_pos hle]
      dsimp only
      rw [hdk, show vs.drop ((ks.length + 1) / 2) = v2 :: vt2 from hdv]
    rw [heq]
    have hk2mem : k2 ∈ ks :=
      List.drop_subset _ ks (hdk ▸ List.mem_cons_self k2 kt2)
    have htdlt := sortedK_take_drop_lt ks ((ks.length + 1) / 2) hsort
    refine ⟨?_, ?_, (hb k2 hk2mem).2, ?_⟩
    · rw [ninv_leaf]
      refine ⟨sortedK_sublist (List.take_sublist _ ks) hsort, ?_, ?_, ?_⟩
      · intro x hx
        refine ⟨(hb x (List.take_subset _ ks hx)).1, ?_⟩
        exact htdlt x hx k2 (hdk ▸ List.mem_cons_self k2 kt2)
      · simp only [List.length_take]
        omega
      · simp only [List.length_take]
        omega
    · obtain ⟨t0, tt, hteq⟩ := take_head_of_le ks ((ks.length + 1) / 2)
        (by omega) (by omega)
      have ht0 : t0 ∈ ks.take ((ks.length + 1) / 2) :=
        hteq ▸ List.mem_cons_self t0 tt
      exact okLoS_of_okLo_lt (hb t0 (List.take_subset _ ks ht0)).1
        (htdlt t0 ht0 k2 (hdk ▸ List.mem_cons_self k2 kt2))
    · rw [ninv_leaf]
      have hsd : sortedK (k2 :: kt2) :=
        hdk ▸ sortedK_sublist (List.drop_sublist _ ks) hsort
      refine ⟨hsd, ?_, ?_, ?_⟩
      · intro x hx
        have hxks : x ∈ ks := List.drop_subset _ ks (hdk ▸ hx)
        refine ⟨?_, (hb x hxks).2⟩
        rcases List.mem_cons.mp hx with hx | hx
        · subst hx; exact le_refl _
        · exact le_of_lt ((List.pairwise_cons.mp hsd).1 x hx)
      · have := congrArg List.length hdk
        simp only [List.length_drop, List.length_cons] at this
        simp only [List.length_cons]
        omega
      · have h1 := congrArg List.length hdk
        have h2 := congrArg List.length hdv
        simp only [List.length_drop, List.length_cons] at h1 h2
        simp only [List.length_cons]
        omega
  · have heq : leafFinish (V := V) order ks vs = .one (.leaf ks vs) := by
      unfold leafFinish
      rw [if_neg hle]
    rw [heq]
    show ninv order (d + 1) store (.leaf ks vs) lo hi
    rw [ninv_leaf]
    exact ⟨hsort, hb, not_le.mp hle, hpar⟩

theorem interiorFinish_ok {V : Type} (order : Nat) (hord : 2 ≤ order) (d : Nat)
    (store : Store V) (ks : List K) (cs : List (Node V)) (lo hi : Option K)
    (hsort : sortedK ks) (hb : ∀ x ∈ ks, okB lo hi x) (hlen : ks.length ≤ order)
    (hch : nchain order d store cs ks lo hi) :
    resOk order (d + 1) store lo hi (interiorFinish order ks cs) := by
  by_cases hle : order ≤ ks.length
  · have hklen : ks.length = order := le_antisymm hlen hle
    have hclen : cs.length = ks.length + 1 := nchain_length order d store cs ks lo hi hch
    obtain ⟨sk, krest, hdk⟩ : ∃ sk krest, ks.drop (ks.length / 2) = sk :: krest := by
      cases hd : ks.drop (ks.length / 2) with
      | nil =>
          exfalso
          have := congrArg List.length hd
          simp only [List.length_drop, List.length_nil] at this
          omega
      | cons a b => exact ⟨a, b, rfl⟩
    have heq : interiorFinish order ks cs =
        .split (.node (ks.take (ks.length / 2)) (cs.take ((cs.length + 1) / 2))) sk
          (.node krest (cs.drop ((cs.length + 1) / 2))) := by
      unfold interiorFinish
      rw [if_pos hle]
      dsimp only
      rw [hdk]
    have hm2 : (cs.length + 1) / 2 = ks.length / 2 + 1 := by omega
    have hks : ks.take (ks.length / 2) ++ sk :: krest = ks := by
      rw [← hdk]; exact List.take_append_drop _ _
    have hch2 : nchain order d store cs
        (ks.take (ks.length / 2) ++ sk :: krest) lo hi := by
      rw [hks]; exact hch
    have htl : (ks.take (ks.length / 2)).length = ks.length / 2 := by
      simp only [List.length_take]
      omega
    obtain ⟨hsp1, hsp2⟩ := nchain_split order _ d store sk krest cs lo hi hch2
    rw [htl] at hsp1 hsp2
    rw [heq, hm2]
    have hskmem : sk ∈ ks := List.drop_subset _ ks (hdk ▸ List.mem_cons_self sk krest)
    have htdlt := sortedK_take_drop_lt ks (ks.length / 2) hsort
    have hsd : sortedK (sk :: krest) :=
      hdk ▸ sortedK_sublist (List.drop_sublist _ ks) hsort
    refine ⟨?_, ?_, (hb sk hskmem).2, ?_⟩
    · rw [ninv_node]
      refine ⟨sortedK_sublist (List.take_sublist _ ks) hsort, ?_, ?_, ?_⟩
      · intro x hx
        refine ⟨(hb x (List.take_subset _ ks hx)).1, ?_⟩
        exact htdlt x hx sk (hdk ▸ List.mem_cons_self sk krest)
      · rw [htl]; omega
      · exact hsp1
    · obtain ⟨t0, tt, hteq⟩ := take_head_of_le ks (ks.length / 2)
        (by omega) (by omega)
      have ht0 : t0 ∈ ks.take (ks.length / 2) :=
        hteq ▸ List.mem_cons_self t0 tt
      exact okLoS_of_okLo_lt (hb t0 (List.take_subset _ ks ht0)).1
        (htdlt t0 ht0 sk (hdk ▸ List.mem_cons_self sk krest))
    · rw [ninv_node]
      refine ⟨(List.pairwise_cons.mp hsd).2, ?_, ?_, ?_⟩
      · intro x hx
        have hxks : x ∈ ks :=
          List.drop_subset _ ks (hdk ▸ List.mem_cons_of_mem sk hx)
        exact ⟨le_of_lt ((List.pairwise_cons.mp hsd).1 x hx), (hb x hxks).2⟩
      · have := congrArg List.length hdk
        simp only [List.length_drop, List.length_cons] at this
        omega
      · exact hsp2
  · have heq : interiorFinish order ks cs = .one (.node ks cs) := by
      unfold interiorFinish
      rw [if_neg hle]
    rw [heq]
    show ninv order (d + 1) store (.node ks cs) lo hi
    rw [ninv_node]
    exact ⟨hsort, hb, not_le.mp hle, hch⟩

theorem setN_pres {V : Type} (order : Nat) (hord : 2 ≤ order) :
    ∀ fuel : Nat,
      (∀ (store : Store V) (n : Node V) (k : K) (v : V) (dh : List Handle)
          (d : Nat) (lo hi : Option K) (res : SetRes V) (dh2 : List Handle),
        ninv order d store n lo hi → okB lo hi k →
        setN order fuel store n k v dh = some (res, dh2) →
        ∃ e, resOk order e store lo hi res) ∧
      (∀ (store : Store V) (ks : List K) (cs : List (Node V)) (k : K) (v : V)
          (dh : List Handle) (d : Nat) (lo hi : Option K) (ks2 : List K)
          (cs2 : List (Node V)) (dh2 : List Handle),
        sortedK ks → (∀ x ∈ ks, okB lo hi x) →
        nchain order d store cs ks lo hi → okB lo hi k →
        setAux order fuel store ks cs k v dh = some (ks2, cs2, dh2) →
        ∃ e, nchain order e store cs2 ks2 lo hi ∧ sortedK ks2 ∧
          (∀ x ∈ ks2, x ∈ ks ∨ (okLoS lo x ∧ okHi x hi)) ∧
          ks2.length ≤ ks.length + 1) := by
  intro fuel
  induction fuel with
  | zero =>
      constructor
      · intro store n k v dh d lo hi res dh2 _ _ h; simp [setN] at h
      · intro store ks cs k v dh d lo hi ks2 cs2 dh2 _ _ _ _ h; simp [setAux] at h
  | succ f ih =>
      obtain ⟨ihN, ihA⟩ := ih
      constructor
      · intro store n k v dh d lo hi res dh2 hinv hk h
        match n with
        | .leaf ks vs =>
            cases d with
            | zero => rw [ninv_zero] at hinv; exact hinv.elim
            | succ e =>
                rw [ninv_leaf] at hinv
                obtain ⟨hsort, hbnd, hlt, hpar⟩ := hinv
                simp only [setN] at h
                cases hli : leafIns ks vs k v with
                | replaced ks3 vs3 =>
                    rw [hli] at h
                    cases h
                    obtain ⟨hk3, hv3⟩ := leafIns_replaced_eq ks vs k v ks3 vs3 hli
                    subst hk3
                    refine ⟨e + 1, ?_⟩
                    show ninv order (e + 1) store (.leaf ks3 vs3) lo hi
                    rw [ninv_leaf]
                    exact ⟨hsort, hbnd, hlt, hv3.trans hpar⟩
                | inserted ks3 vs3 =>
                    rw [hli] at h
                    cases h
                    obtain ⟨hs3, hb3, _, hl3, hl4⟩ :=
                      leafIns_inserted_props lo hi k v hk ks vs ks3 vs3 hsort hbnd
                        hpar hli
                    exact ⟨0 + 1, leafFinish_ok order hord 0 store ks3 vs3 lo hi
                      hs3 hb3 (by omega) (by omega)⟩
        | .node ks cs =>
            cases d with
            | zero => rw [ninv_zero] at hinv; exact hinv.elim
            | succ e =>
                rw [ninv_node] at hinv
                obtain ⟨hsort, hbnd, hlt, hch⟩ := hinv
                simp only [setN] at h
                cases hsa : setAux order f store ks cs k v dh with
                | none => rw [hsa] at h; cases h
                | some r =>
                    obtain ⟨ks3, cs3, dh3⟩ := r
                    rw [hsa] at h
                    cases h
                    obtain ⟨e2, hch2, hs2, hm2, hl2⟩ :=
                      ihA store ks cs k v dh e lo hi ks3 cs3 _ hsort hbnd hch hk hsa
                    refine ⟨e2 + 1, interiorFinish_ok order hord e2 store ks3 cs3
                      lo hi hs2 ?_ (by omega) hch2⟩
                    intro x hx
                    rcases hm2 x hx with hx2 | hx2
                    · exact hbnd x hx2
                    · exact ⟨okLoS_okLo hx2.1, hx2.2⟩
        | .lazy h0 =>
            cases d with
            | zero => rw [ninv_zero] at hinv; exact hinv.elim
            | succ e =>
                rw [ninv_lazy] at hinv
                obtain ⟨pn, hf, hp⟩ := hinv
                simp only [setN] at h
                rw [hf] at h
                exact ihN store (buildNode pn) k v (dh ++ [h0]) (e + 1) lo hi res dh2
                  (pinv_build order e store pn lo hi hp) hk h
        | .lazyCached h0 m =>
            cases d with
            | zero => rw [ninv_zero] at hinv; exact hinv.elim
            | succ e =>
                rw [ninv_lazyCached] at hinv
                simp only [setN] at h
                exact ihN store m k v (dh ++ [h0]) e lo hi res dh2 hinv.2 hk h
      · intro store ks cs k v dh d lo hi ks2 cs2 dh2 hsort hbnd hch hk h
        match ks, cs with
        | _, [] => simp [setAux] at h
        | [], c :: rest =>
            cases d with
            | zero => rw [nchain_zero] at hch; exact hch.elim
            | succ e =>
                cases rest with
                | cons c2 rest' => rw [nchain_two_nil] at hch; exact hch.elim
                | nil =>
                    rw [nchain_single] at hch
                    simp only [setAux] at h
                    cases hsn : setN order f store c k v dh with
                    | none => rw [hsn] at h; cases h
                    | some r =>
                        obtain ⟨res, dh3⟩ := r
                        rw [hsn] at h
                        obtain ⟨e2, hres⟩ :=
                          ihN store c k v dh e lo hi res dh3 hch hk hsn
                        cases res with
                        | one c2 =>
                            cases h
                            refine ⟨e2 + 1, ?_, List.Pairwise.nil, ?_, by simp⟩
                            · show nchain order (e2 + 1) store [c2] [] lo hi
                              rw [nchain_single]
                              exact hres
                            · intro x hx
                              exact absurd hx (List.not_mem_nil x)
                        | split a sk b =>
                            cases h
                            obtain ⟨ha, hls, hhs, hbv⟩ := hres
                            refine ⟨e2 + 2, ?_, List.pairwise_singleton _ _, ?_,
                              by simp⟩
                            · show nchain order (e2 + 2) store [a, b] [sk] lo hi
                              rw [nchain_cons]
                              constructor
                              · exact ninv_mono order (Nat.le_succ e2) store a _ _ ha
                              · show nchain order (e2 + 1) store [b] [] (some sk) hi
                                rw [nchain_single]
                                exact hbv
                            · intro x hx
                              rw [List.mem_singleton] at hx
                              subst hx
                              exact Or.inr ⟨hls, hhs⟩
        | k0 :: kt, c :: ct =>
            cases d with
            | zero => rw [nchain_zero] at hch; exact hch.elim
            | succ e =>
                rw [nchain_cons] at hch
                obtain ⟨hc, hct⟩ := hch
                rcases List.pairwise_cons.mp hsort with ⟨hall, htail⟩
                have hk0 : okB lo hi k0 := hbnd k0 (List.mem_cons_self k0 kt)
                simp only [setAux] at h
                by_cases hlt : k < k0
                · rw [if_pos hlt] at h
                  cases hsn : setN order f store c k v dh with
                  | none => rw [hsn] at h; cases h
                  | some r =>
                      obtain ⟨res, dh3⟩ := r
                      rw [hsn] at h
                      obtain ⟨e2, hres⟩ :=
                        ihN store c k v dh e lo (some k0) res dh3 hc ⟨hk.1, hlt⟩ hsn
                      cases res with
                      | one c2 =>
                          cases h
                          refine ⟨(e2 ⊔ e) + 1, ?_, hsort, ?_, by simp⟩
                          · show nchain order ((e2 ⊔ e) + 1) store (c2 :: ct)
                              (k0 :: kt) lo hi
                            rw [nchain_cons]
                            exact ⟨ninv_mono order (Nat.le_max_left e2 e) store c2 _ _
                                hres,
                              nchain_mono order (Nat.le_max_right e2 e) store ct kt _ _
                                hct⟩
                          · intro x hx
                            exact Or.inl hx
                      | split a sk b =>
                          cases h
                          obtain ⟨ha, hls, hhs, hbv⟩ := hres
                          have hskk0 : sk < k0 := hhs
                          refine ⟨(e2 ⊔ e) + 2, ?_, ?_, ?_, by simp⟩
                          · show nchain order ((e2 ⊔ e) + 2) store (a :: b :: ct)
                              (sk :: k0 :: kt) lo hi
                            rw [nchain_cons]
                            constructor
                            · exact ninv_mono order
                                (le_trans (Nat.le_max_left e2 e) (Nat.le_succ _))
                                store a _ _ ha
                            · show nchain order ((e2 ⊔ e) + 1) store (b :: ct)
                                (k0 :: kt) (some sk) hi
                              rw [nchain_cons]
                              exact ⟨ninv_mono order (Nat.le_max_left e2 e) store b _ _
                                  hbv,
                                nchain_mono order (Nat.le_max_right e2 e) store ct kt
                                  _ _ hct⟩
                          · refine List.pairwise_cons.mpr ⟨?_, hsort⟩
                            intro y hy
                            rcases List.mem_cons.mp hy with hy | hy
                            · exact hy ▸ hskk0
                            · exact lt_trans hskk0 (hall y hy)
                          · intro x hx
                            rcases List.mem_cons.mp hx with hx | hx
                            · subst hx
                              exact Or.inr ⟨hls, okHi_of_lt_okHi hskk0 hk0.2⟩
                            · exact Or.inl hx
                · rw [if_neg hlt] at h
                  cases hsa : setAux order f store kt ct k v dh with
                  | none => rw [hsa] at h; cases h
                  | some r =>
                      obtain ⟨ks3, cs3, dh3⟩ := r
                      rw [hsa] at h
                      cases h
                      have hbt : ∀ x ∈ kt, okB (some k0) hi x := by
                        intro x hx
                        exact ⟨le_of_lt (hall x hx),
                          (hbnd x (List.mem_cons_of_mem _ hx)).2⟩
                      obtain ⟨e2, hch2, hs2, hm2, hl2⟩ :=
                        ihA store kt ct k v dh e (some k0) hi ks3 cs3 _ htail hbt
                          hct ⟨not_lt.mp hlt, hk.2⟩ hsa
                      refine ⟨(e2 ⊔ e) + 1, ?_, ?_, ?_, ?_⟩
                      · show nchain order ((e2 ⊔ e) + 1) store (c :: cs3)
                          (k0 :: ks3) lo hi
                        rw [nchain_cons]
                        exact ⟨ninv_mono order (Nat.le_max_right e2 e) store c _ _ hc,
                          nchain_mono order (Nat.le_max_left e2 e) store cs3 ks3 _ _
                            hch2⟩
                      · refine List.pairwise_cons.mpr ⟨?_, hs2⟩
                        intro y hy
                        rcases hm2 y hy with hy2 | hy2
                        · exact hall y hy2
                        · exact hy2.1
                      · intro x hx
                        rcases List.mem_cons.mp hx with hx | hx
                        · exact Or.inl (hx ▸ List.mem_cons_self k0 kt)
                        · rcases hm2 x hx with hx2 | hx2
                          · exact Or.inl (List.mem_cons_of_mem _ hx2)
                          · exact Or.inr ⟨okLoS_of_okLo_lt hk0.1 hx2.1, hx2.2⟩
                      · simp only [List.length_cons]
                        omega

theorem delN_pres {V : Type} (order : Nat) :
    ∀ fuel : Nat,
      (∀ (store : Store V) (n : Node V) (k : K) (dh : List Handle) (d : Nat)
          (lo hi : Option K) (n2 : Node V) (dh2 : List Handle),
        ninv order d store n lo hi →
        delN fuel store n k dh = some (n2, dh2) →
        ∃ e, ninv order e store n2 lo hi) ∧
      (∀ (store : Store V) (ks : List K) (cs : List (Node V)) (k : K)
          (dh : List Handle) (d : Nat) (lo hi : Option K) (cs2 : List (Node V))
          (dh2 : List Handle),
        nchain order d store cs ks lo hi →
        delAux fuel store ks cs k dh = some (cs2, dh2) →
        ∃ e, nchain order e store cs2 ks lo hi) := by
  intro fuel
  induction fuel with
  | zero =>
      constructor
      · intro store n k dh d lo hi n2 dh2 _ h; simp [delN] at h
      · intro store ks cs k dh d lo hi cs2 dh2 _ h; simp [delAux] at h
  | succ f ih =>
      obtain ⟨ihN, ihA⟩ := ih
      constructor
      · intro store n k dh d lo hi n2 dh2 hinv h
        match n with
        | .leaf ks vs =>
            cases d with
            | zero => rw [ninv_zero] at hinv; exact hinv.elim
            | succ e =>
                rw [ninv_leaf] at hinv
                obtain ⟨hsort, hbnd, hlt, hpar⟩ := hinv
                simp only [delN] at h
                cases hld : leafDel ks vs k with
                | none =>
                    rw [hld] at h
                    cases h
                    refine ⟨e + 1, ?_⟩
                    rw [ninv_leaf]
                    exact ⟨hsort, hbnd, hlt, hpar⟩
                | some r =>
                    obtain ⟨ks3, vs3⟩ := r
                    rw [hld] at h
                    cases h
                    obtain ⟨hsub, hl1, hl2⟩ := leafDel_some_props ks vs k ks3 vs3 hld
                    refine ⟨e + 1, ?_⟩
                    rw [ninv_leaf]
                    refine ⟨sortedK_sublist hsub hsort, ?_, by omega, by omega⟩
                    intro x hx
                    exact hbnd x (hsub.subset hx)
        | .node ks cs =>
            cases d with
            | zero => rw [ninv_zero] at hinv; exact hinv.elim
            | succ e =>
                rw [ninv_node] at hinv
                obtain ⟨hsort, hbnd, hlt, hch⟩ := hinv
                simp only [delN] at h
                cases hda : delAux f store ks cs k dh with
                | none => rw [hda] at h; cases h
                | some r =>
                    obtain ⟨cs3, dh3⟩ := r
                    rw [hda] at h
                    cases h
                    obtain ⟨e2, hch2⟩ := ihA store ks cs k dh e lo hi cs3 _ hch hda
                    refine ⟨e2 + 1, ?_⟩
                    rw [ninv_node]
                    exact ⟨hsort, hbnd, hlt, hch2⟩
        | .lazy h0 =>
            cases d with
            | zero => rw [ninv_zero] at hinv; exact hinv.elim
            | succ e =>
                rw [ninv_lazy] at hinv
                obtain ⟨pn, hf, hp⟩ := hinv
                simp only [delN] at h
                rw [hf] at h
                exact ihN store (buildNode pn) k (dh ++ [h0]) (e + 1) lo hi n2 dh2
                  (pinv_build order e store pn lo hi hp) h
        | .lazyCached h0 m =>
            cases d with
            | zero => rw [ninv_zero] at hinv; exact hinv.elim
            | succ e =>
                rw [ninv_lazyCached] at hinv
                simp only [delN] at h
                exact ihN store m k (dh ++ [h0]) e lo hi n2 dh2 hinv.2 h
      · intro store ks cs k dh d lo hi cs2 dh2 hch h
        match ks, cs with
        | _, [] => simp [delAux] at h
        | [], c :: rest =>
            cases d with
            | zero => rw [nchain_zero] at hch; exact hch.elim
            | succ e =>
                cases rest with
                | cons c2 rest' => rw [nchain_two_nil] at hch; exact hch.elim
                | nil =>
                    rw [nchain_single] at hch
                    simp only [delAux] at h
                    cases hdn : delN f store c k dh with
                    | none => rw [hdn] at h; cases h
                    | some r =>
                        obtain ⟨c3, dh3⟩ := r
                        rw [hdn] at h
                        cases h
                        obtain ⟨e2, hc3⟩ := ihN store c k dh e lo hi c3 _ hch hdn
                        refine ⟨e2 + 1, ?_⟩
                        show nchain order (e2 + 1) store [c3] [] lo hi
                        rw [nchain_single]
                        exact hc3
        | k0 :: kt, c :: ct =>
            cases d with
            | zero => rw [nchain_zero] at hch; exact hch.elim
            | succ e =>
                rw [nchain_cons] at hch
                obtain ⟨hc, hct⟩ := hch
                simp only [delAux] at h
                by_cases hlt : k < k0
                · rw [if_pos hlt] at h
                  cases hdn : delN f store c k dh with
                  | none => rw [hdn] at h; cases h
                  | some r =>
                      obtain ⟨c3, dh3⟩ := r
                      rw [hdn] at h
                      cases h
                      obtain ⟨e2, hc3⟩ := ihN store c k dh e lo (some k0) c3 _ hc hdn
                      refine ⟨(e2 ⊔ e) + 1, ?_⟩
                      show nchain order ((e2 ⊔ e) + 1) store (c3 :: ct) (k0 :: kt) lo hi
                      rw [nchain_cons]
                      exact ⟨ninv_mono order (Nat.le_max_left e2 e) store c3 _ _ hc3,
                        nchain_mono order (Nat.le_max_right e2 e) store ct kt _ _ hct⟩
                · rw [if_neg hlt] at h
                  cases hda : delAux f store kt ct k dh with
                  | none => rw [hda] at h; cases h
                  | some r =>
                      obtain ⟨cs3, dh3⟩ := r
                      rw [hda] at h
                      cases h
                      obtain ⟨e2, hch2⟩ := ihA store kt ct k dh e (some k0) hi cs3 _
                        hct hda
                      refine ⟨(e2 ⊔ e) + 1, ?_⟩
                      show nchain order ((e2 ⊔ e) + 1) store (c :: cs3) (k0 :: kt) lo hi
                      rw [nchain_cons]
                      exact ⟨ninv_mono order (Nat.le_max_right e2 e) store c _ _ hc,
                        nchain_mono order (Nat.le_max_left e2 e) store cs3 kt _ _ hch2⟩

theorem uploadL_nil {V : Type} :
    ∀ (f : Nat) (ctr : Nat) (store : Store V) (nh : List Handle) r,
      uploadL f [] ctr store nh = some r → r = ([], ctr, store, nh) := by
  intro f ctr store nh r h
  cases f with
  | zero => simp [uploadL] at h
  | succ f2 =>
      simp only [uploadL] at h
      cases h
      rfl

theorem uploadN_pres {V : Type} (order : Nat) :
    ∀ fuel : Nat,
      (∀ (store : Store V) (n : Node V) (ctr : Nat) (nh : List Handle) (d : Nat)
          (lo hi : Option K) (h1 : Handle) (ctr2 : Nat) (store2 : Store V)
          (nh2 : List Handle),
        ninv order d store n lo hi → (∀ p ∈ store, p.1 < ctr) →
        uploadN fuel n ctr store nh = some (h1, ctr2, store2, nh2) →
        storeLe store store2 ∧ ctr ≤ ctr2 ∧ (∀ p ∈ store2, p.1 < ctr2) ∧
          ∃ e pn, Store.find store2 h1 = some pn ∧ pinv order e store2 pn lo hi) ∧
      (∀ (store : Store V) (cs : List (Node V)) (ks : List K) (ctr : Nat)
          (nh : List Handle) (d : Nat) (lo hi : Option K) (hs : List Handle)
          (ctr2 : Nat) (store2 : Store V) (nh2 : List Handle),
        nchain order d store cs ks lo hi → (∀ p ∈ store, p.1 < ctr) →
        uploadL fuel cs ctr store nh = some (hs, ctr2, store2, nh2) →
        storeLe store store2 ∧ ctr ≤ ctr2 ∧ (∀ p ∈ store2, p.1 < ctr2) ∧
          ∃ e, pchain order e store2 hs ks lo hi) := by
  intro fuel
  induction fuel with
  | zero =>
      constructor
      · intro store n ctr nh d lo hi h1 ctr2 store2 nh2 _ _ h; simp [uploadN] at h
      · intro store cs ks ctr nh d lo hi hs ctr2 store2 nh2 _ _ h
        simp [uploadL] at h
  | succ f ih =>
      obtain ⟨ihN, ihA⟩ := ih
      constructor
      · intro store n ctr nh d lo hi h1 ctr2 store2 nh2 hinv hfresh h
        match n with
        | .leaf ks vs =>
            cases d with
            | zero => rw [ninv_zero] at hinv; exact hinv.elim
            | succ e =>
                rw [ninv_leaf] at hinv
                simp only [uploadN] at h
                cases h
                refine ⟨storeLe_append store _, Nat.le_succ ctr, ?_, ?_⟩
                · intro p hp
                  rcases List.mem_append.mp hp with hp | hp
                  · exact Nat.lt_succ_of_lt (hfresh p hp)
                  · rw [List.mem_singleton] at hp
                    subst hp
                    exact Nat.lt_succ_self ctr
                · refine ⟨e + 1, .pleaf ks vs, ?_, ?_⟩
                  · exact find_append_fresh store ctr _
                      (fun p hp => Nat.ne_of_lt (hfresh p hp))
                  · rw [pinv_leaf]
                    exact hinv
        | .node ks cs =>
            cases d with
            | zero => rw [ninv_zero] at hinv; exact hinv.elim
            | succ e =>
                rw [ninv_node] at hinv
                obtain ⟨hsort, hbnd, hlt, hch⟩ := hinv
                simp only [uploadN] at h
                cases hl : uploadL f cs ctr store nh with
                | none => rw [hl] at h; cases h
                | some r =>
                    obtain ⟨hs1, ctr1, store1, nh1⟩ := r
                    rw [hl] at h
                    cases h
                    obtain ⟨le1, hc1, hf1, d2, hpch⟩ :=
                      ihA store cs ks ctr nh e lo hi hs1 _ _ _ hch hfresh hl
                    refine ⟨storeLe_trans le1 (storeLe_append store1 _),
                      by omega, ?_, ?_⟩
                    · intro p hp
                      rcases List.mem_append.mp hp with hp | hp
                      · exact Nat.lt_succ_of_lt (hf1 p hp)
                      · rw [List.mem_singleton] at hp
                        subst hp
                        exact Nat.lt_succ_self _
                    · refine ⟨d2 + 1, .pnode ks hs1, ?_, ?_⟩
                      · exact find_append_fresh store1 _ _
                          (fun p hp => Nat.ne_of_lt (hf1 p hp))
                      · rw [pinv_node]
                        refine ⟨hsort, hbnd, hlt, ?_⟩
                        exact (pinv_store_mono order d2).2 store1 _ hs1 ks lo hi
                          (storeLe_append store1 _) hpch
        | .lazy h0 =>
            cases d with
            | zero => rw [ninv_zero] at hinv; exact hinv.elim
            | succ e =>
                rw [ninv_lazy] at hinv
                obtain ⟨pn, hf2, hp2⟩ := hinv
                simp only [uploadN] at h
                cases h
                exact ⟨storeLe_refl store, le_refl ctr, hfresh, e, pn, hf2, hp2⟩
        | .lazyCached h0 m =>
            cases d with
            | zero => rw [ninv_zero] at hinv; exact hinv.elim
            | succ e =>
                rw [ninv_lazyCached] at hinv
                obtain ⟨⟨pn, hf2, hp2⟩, _⟩ := hinv
                simp only [uploadN] at h
                cases h
                exact ⟨storeLe_refl store, le_refl ctr, hfresh, e, pn, hf2, hp2⟩
      · intro store cs ks ctr nh d lo hi hs ctr2 store2 nh2 hch hfresh h
        match cs, ks with
        | [], [] =>
            cases d with
            | zero => rw [nchain_zero] at hch; exact hch.elim
            | succ e => rw [nchain_nil_nil] at hch; exact hch.elim
        | [], k0 :: kt =>
            cases d with
            | zero => rw [nchain_zero] at hch; exact hch.elim
            | succ e => rw [nchain_nil_cons] at hch; exact hch.elim
        | c :: ct, [] =>
            cases d with
            | zero => rw [nchain_zero] at hch; exact hch.elim
            | succ e =>
                cases ct with
                | cons c2 ct' => rw [nchain_two_nil] at hch; exact hch.elim
                | nil =>
                    rw [nchain_single] at hch
                    simp only [uploadL] at h
                    cases hn : uploadN f c ctr store nh with
                    | none => rw [hn] at h; cases h
                    | some r =>
                        obtain ⟨h1, ctr1, store1, nh1⟩ := r
                        simp only [hn] at h
                        obtain ⟨le1, hc1, hf1, d2, pn, hfind, hp⟩ :=
                          ihN store c ctr nh e lo hi h1 ctr1 store1 nh1 hch hfresh hn
                        cases hl : uploadL f ([] : List (Node V)) ctr1 store1 nh1 with
                        | none => rw [hl] at h; cases h
                        | some r2 =>
                            have hr2 := uploadL_nil f ctr1 store1 nh1 r2 hl
                            subst hr2
                            rw [hl] at h
                            cases h
                            refine ⟨le1, hc1, hf1, d2 + 1, ?_⟩
                            rw [pchain_single]
                            exact ⟨pn, hfind, hp⟩
        | c :: ct, k0 :: kt =>
            cases d with
            | zero => rw [nchain_zero] at hch; exact hch.elim
            | succ e =>
                rw [nchain_cons] at hch
                obtain ⟨hc, hct⟩ := hch
                simp only [uploadL] at h
                cases hn : uploadN f c ctr store nh with
                | none => rw [hn] at h; cases h
                | some r =>
                    obtain ⟨h1, ctr1, store1, nh1⟩ := r
                    simp only [hn] at h
                    obtain ⟨le1, hc1, hf1, d2, pn, hfind, hp⟩ :=
                      ihN store c ctr nh e lo (some k0) h1 ctr1 store1 nh1 hc hfresh hn
                    cases hl : uploadL f ct ctr1 store1 nh1 with
                    | none => rw [hl] at h; cases h
                    | some r2 =>
                        obtain ⟨hs2, ctr3, store3, nh3⟩ := r2
                        rw [hl] at h
                        cases h
                        have hct1 : nchain order e store1 ct kt (some k0) hi :=
                          (ninv_store_mono order e).2 store store1 ct kt _ _ le1 hct
                        obtain ⟨le2, hc2, hf2, d3, hpch⟩ :=
                          ihA store1 ct kt ctr1 nh1 e (some k0) hi hs2 _ _ _
                            hct1 hf1 hl
                        refine ⟨storeLe_trans le1 le2, by omega, hf2, (d2 ⊔ d3) + 1, ?_⟩
                        rw [pchain_cons]
                        constructor
                        · refine ⟨pn, le2 h1 pn hfind, ?_⟩
                          exact pinv_mono order (Nat.le_max_left d2 d3) _ pn _ _
                            ((pinv_store_mono order d2).1 store1 _ pn _ _ le2 hp)
                        · exact pchain_mono order (Nat.le_max_right d2 d3) _
                            hs2 kt _ _ hpch

/-- A tree in a good state: a sane order and a root that is well formed
against the store at some depth, with unbounded key range. -/
def GoodT {V : Type} (store : Store V) (t : Tree V) : Prop :=
  2 ≤ t.order ∧ ∃ d, ninv t.order d store t.root none none

theorem setT_pres {V : Type} {fuel : Nat} {store : Store V} {t : Tree V}
    {k : K} {v : V} {dh : List Handle} {t2 : Tree V} {dh2 : List Handle}
    (hg : GoodT store t) (h : setT fuel store t k v dh = some (t2, dh2)) :
    t2.order = t.order ∧ GoodT store t2 := by
  obtain ⟨hord, d, hinv⟩ := hg
  unfold setT at h
  cases hsn : setN t.order fuel store t.root k v dh with
  | none => rw [hsn] at h; cases h
  | some r =>
      obtain ⟨res, dh3⟩ := r
      rw [hsn] at h
      obtain ⟨e, hres⟩ := (setN_pres t.order hord fuel).1 store t.root k v dh d
        none none res dh3 hinv ⟨trivial, trivial⟩ hsn
      cases res with
      | one n =>
          cases h
          exact ⟨rfl, hord, e, hres⟩
      | split a sk b =>
          cases h
          obtain ⟨ha, _, _, hb⟩ := hres
          refine ⟨rfl, hord, e + 3, ?_⟩
          show ninv t.order (e + 3) store (.node [sk] [a, b]) none none
          rw [ninv_node]
          refine ⟨List.pairwise_singleton _ _, ?_, by simp; omega, ?_⟩
          · intro x _
            exact ⟨trivial, trivial⟩
          · show nchain t.order (e + 2) store [a, b] [sk] none none
            rw [nchain_cons]
            constructor
            · exact ninv_mono t.order (Nat.le_succ e) store a _ _ ha
            · show nchain t.order (e + 1) store [b] [] (some sk) none
              rw [nchain_single]
              exact hb

theorem delT_pres {V : Type} {fuel : Nat} {store : Store V} {t : Tree V}
    {k : K} {dh : List Handle} {t2 : Tree V} {dh2 : List Handle}
    (hg : GoodT store t) (h : delT fuel store t k dh = some (t2, dh2)) :
    t2.order = t.order ∧ GoodT store t2 := by
  obtain ⟨hord, d, hinv⟩ := hg
  unfold delT at h
  cases hdn : delN fuel store t.root k dh with
  | none => rw [hdn] at h; cases h
  | some r =>
      obtain ⟨n2, dh3⟩ := r
      rw [hdn] at h
      cases h
      obtain ⟨e, hinv2⟩ := (delN_pres t.order fuel).1 store t.root k dh d
        none none n2 _ hinv hdn
      exact ⟨rfl, hord, e, hinv2⟩

theorem foldlM_option_inv {α β : Type} (P : α → Prop) (f : α → β → Option α) :
    ∀ (l : List β) (a b : α), P a →
      (∀ x y r, P x → f x y = some r → P r) →
      List.foldlM f a l = some b → P b := by
  intro l
  induction l with
  | nil =>
      intro a b ha _ h
      have h2 : some a = some b := h
      cases h2
      exact ha
  | cons x xs ih =>
      intro a b ha hstep h
      rw [List.foldlM_cons] at h
      cases hf : f a x with
      | none =>
          rw [hf] at h
          cases h
      | some a2 =>
          rw [hf] at h
          exact ih a2 b (hstep a x a2 ha hf) hstep h

theorem flushT_updateT_pres {V : Type} {fuel : Nat} {t : Tree V}
    {updates : List (K × V)} {deletes : List K} {ctr : Nat} {store : Store V}
    {u : FlushOutput} {ctr2 : Nat} {store2 : Store V}
    (hg : GoodT store t) (hfresh : ∀ p ∈ store, p.1 < ctr)
    (h : flushT fuel t updates deletes ctr store = some (u, ctr2, store2)) :
    GoodT store2 (updateT t u) ∧ storeLe store store2 ∧ ctr ≤ ctr2 ∧
      (∀ p ∈ store2, p.1 < ctr2) := by
  simp only [flushT] at h
  cases hstep1 : updates.foldlM (fun (acc : Tree V × List Handle) kv =>
      setT fuel store t kv.1 kv.2 acc.2) (t, []) with
  | none => rw [hstep1] at h; cases h
  | some p1 =>
      obtain ⟨b1, dh1⟩ := p1
      simp only [hstep1] at h
      have hb1 : b1.order = t.order ∧ GoodT store b1 := by
        have := foldlM_option_inv
          (fun (acc : Tree V × List Handle) => acc.1.order = t.order ∧ GoodT store acc.1)
          (fun (acc : Tree V × List Handle) kv => setT fuel store t kv.1 kv.2 acc.2)
          updates (t, []) (b1, dh1) ⟨rfl, hg⟩
          (fun x y r _ hf => setT_pres hg hf)
          hstep1
        exact this
      cases hstep2 : deletes.foldlM (fun (acc : Tree V × List Handle) k =>
          delT fuel store t k acc.2) (b1, dh1) with
      | none => rw [hstep2] at h; cases h
      | some p2 =>
          obtain ⟨b2, dh2⟩ := p2
          simp only [hstep2] at h
          have hb2 : b2.order = t.order ∧ GoodT store b2 := by
            have := foldlM_option_inv
              (fun (acc : Tree V × List Handle) =>
                acc.1.order = t.order ∧ GoodT store acc.1)
              (fun (acc : Tree V × List Handle) k => delT fuel store t k acc.2)
              deletes (b1, dh1) (b2, dh2) hb1
              (fun x y r _ hf => delT_pres hg hf)
              hstep2
            exact this
          obtain ⟨horder, hordb, d, hinvb⟩ := hb2
          cases hup : uploadN fuel b2.root ctr store [] with
          | none => rw [hup] at h; cases h
          | some r =>
              obtain ⟨newRoot, ctr3, store3, nh3⟩ := r
              rw [hup] at h
              cases h
              obtain ⟨le1, hc1, hf1, e, pn, hfind, hp⟩ :=
                (uploadN_pres b2.order fuel).1 store b2.root ctr [] d none none
                  newRoot _ _ _ hinvb hfresh hup
              refine ⟨⟨?_, e + 1, ?_⟩, le1, hc1, hf1⟩
              · show 2 ≤ t.order
                exact horder ▸ hordb
              · show ninv t.order (e + 1) _ (.lazy newRoot) none none
                rw [ninv_lazy]
                exact ⟨pn, hfind, horder ▸ hp⟩

/-- The trees reachable from `create` or `load` by `set`, `delete`,
`flush`-then-`update` and `clear`, together with the accompanying blob store
and handle counter.  `create` and `load` require a sane order (`≥ 2`, as the
source's `assert` enforces order `> 1`), a counter past every allocated
handle, and — for a loaded root handle — a well-formed persisted tree behind
it. -/
inductive ReachC (V : Type) : Store V → Nat → Tree V → Prop where
  | create (order : Nat) (store : Store V) (ctr : Nat) :
      2 ≤ order → (∀ p ∈ store, p.1 < ctr) →
      ReachC V store ctr (createT V order)
  | set (store : Store V) (ctr : Nat) (t : Tree V) (fuel : Nat) (k : K) (v : V)
      (dh : List Handle) (t2 : Tree V) (dh2 : List Handle) :
      ReachC V store ctr t → setT fuel store t k v dh = some (t2, dh2) →
      ReachC V store ctr t2
  | del (store : Store V) (ctr : Nat) (t : Tree V) (fuel : Nat) (k : K)
      (dh : List Handle) (t2 : Tree V) (dh2 : List Handle) :
      ReachC V store ctr t → delT fuel store t k dh = some (t2, dh2) →
      ReachC V store ctr t2
  | flushUpdate (store : Store V) (ctr : Nat) (t : Tree V) (fuel : Nat)
      (updates : List (K × V)) (deletes : List K) (u : FlushOutput)
      (ctr2 : Nat) (store2 : Store V) :
      ReachC V store ctr t →
      flushT fuel t updates deletes ctr store = some (u, ctr2, store2) →
      ReachC V store2 ctr2 (updateT t u)
  | clear (store : Store V) (ctr : Nat) (t : Tree V) :
      ReachC V store ctr t → ReachC V store ctr (clearT t)
  | loadHandle (order : Nat) (rootHandle : Handle) (handles : List Handle)
      (store : Store V) (ctr : Nat) :
      2 ≤ order → (∀ p ∈ store, p.1 < ctr) →
      (∃ d pn, Store.find store rootHandle = some pn ∧
        pinv order d store pn none none) →
      ReachC V store ctr (loadHandleT V order rootHandle handles)
  | loadLeaf (fuel : Nat) (store : Store V) (order : Nat) (ks : List K)
      (vs : List V) (ctr : Nat) (t : Tree V) :
      2 ≤ order → (∀ p ∈ store, p.1 < ctr) →
      loadLeafT fuel store order ks vs = some t →
      ReachC V store ctr t

theorem reachC_good {V : Type} {store : Store V} {ctr : Nat} {t : Tree V}
    (h : ReachC V store ctr t) :
    2 ≤ t.order ∧ (∀ p ∈ store, p.1 < ctr) ∧
      ∃ d, ninv t.order d store t.root none none := by
  induction h with
  | create order store ctr hord hfresh =>
      refine ⟨hord, hfresh, 1, ?_⟩
      show ninv order 1 store (.leaf [] []) none none
      rw [ninv_leaf]
      exact ⟨List.Pairwise.nil, fun x hx => absurd hx (List.not_mem_nil x),
        by simp only [List.length_nil]; omega, rfl⟩
  | set store ctr t fuel k v dh t2 dh2 hre hset ih =>
      obtain ⟨hord, hfresh, hinv⟩ := ih
      obtain ⟨_, hg⟩ := setT_pres ⟨hord, hinv⟩ hset
      exact ⟨hg.1, hfresh, hg.2⟩
  | del store ctr t fuel k dh t2 dh2 hre hdel ih =>
      obtain ⟨hord, hfresh, hinv⟩ := ih
      obtain ⟨_, hg⟩ := delT_pres ⟨hord, hinv⟩ hdel
      exact ⟨hg.1, hfresh, hg.2⟩
  | flushUpdate store ctr t fuel updates deletes u ctr2 store2 hre hfl ih =>
      obtain ⟨hord, hfresh, hinv⟩ := ih
      obtain ⟨hg, _, _, hfr2⟩ := flushT_updateT_pres ⟨hord, hinv⟩ hfresh hfl
      exact ⟨hg.1, hfr2, hg.2⟩
  | clear store ctr t hre ih =>
      obtain ⟨hord, hfresh, _⟩ := ih
      refine ⟨hord, hfresh, 1, ?_⟩
      show ninv t.order 1 store (.leaf [] []) none none
      rw [ninv_leaf]
      exact ⟨List.Pairwise.nil, fun x hx => absurd hx (List.not_mem_nil x),
        by simp only [List.length_nil]; omega, rfl⟩
  | loadHandle order rootHandle handles store ctr hord hfresh hroot =>
      obtain ⟨d, pn, hf, hp⟩ := hroot
      refine ⟨hord, hfresh, d + 1, ?_⟩
      show ninv order (d + 1) store (.lazy rootHandle) none none
      rw [ninv_lazy]
      exact ⟨pn, hf, hp⟩
  | loadLeaf fuel store order ks vs ctr t hord hfresh hload =>
      simp only [loadLeafT] at hload
      split_ifs at hload with h1 h2
      cases hload
      refine ⟨hord, hfresh, 1, ?_⟩
      show ninv order 1 store (.leaf [] []) none none
      rw [ninv_leaf]
      exact ⟨List.Pairwise.nil, fun x hx => absurd hx (List.not_mem_nil x),
        by simp only [List.length_nil]; omega, rfl⟩

/-- C2: for every B-tree reachable by any sequence of `set`, `delete`,
`flush`/`update`, `clear` and `load` operations (from a `create` or a `load`
of a well-formed serialized tree), the node-local shape invariant holds of
the whole in-memory tree: every interior node has exactly
`children.length - 1` keys, the keys within every node are strictly
ascending, and no node holds `order` or more entries. -/
theorem reachable_tree_shape_ok {V : Type} (store : Store V) (ctr : Nat)
    (t : Tree V) (h : ReachC V store ctr t) :
    localOkB t.order t.root = true := by
  obtain ⟨_, _, d, hinv⟩ := reachC_good h
  exact (ninv_localOk t.order d).1 store t.root none none hinv

theorem reachable_tree_shape_ok_witness :
    localOkB 4 (Node.leaf ["a"] [(1 : Nat)]) = true :=
  reachable_tree_shape_ok [] 0
    { order := 4, root := Node.leaf ["a"] [(1 : Nat)], handles := [] }
    (ReachC.set [] 0 (createT Nat 4) 2 "a" 1 [] _ []
      (ReachC.create 4 [] 0 (by decide)
        (fun p hp => absurd hp (List.not_mem_nil p)))
      (by rfl))

end PartialMap
